import Mathlib

/-!
# redisprefixtest: key prefixing hook

A shallow embedding of `redisprefixtest/hook.go` and a verification of its
contract.

## Modelling conventions

* A `redis.Cmder` is a reference (`Cmder := Nat`).  The slice returned by
  `cmd.Args()` has a length fixed when the command is built (`argc cmd`) and a
  backing array whose elements can be overwritten in place (`mem cmd i`).
  Distinct commands have distinct backing arrays. The hook and every `next`
  share the backing arrays, so a `next` can read and overwrite elements; no Go
  code can change the length of a slice it only reaches through `Args()`.
* Index expressions `args[i]` are bounds checked against `argc cmd` and panic
  when out of range, as in Go.
* A Go function that takes pointers and returns `error` becomes a state
  passing function returning an `Outcome` (normal return with an optional
  error, or a panic) together with the new state.
* `defer` is modelled by an explicit stack of pending `restoreKey` calls that
  is run last-in first-out when the function body is left, on normal return
  and on panic alike.
* The field `prefix` of the Go structs is spelled `pfx`, and the Go type
  `Option` is spelled `HookOption`.
-/

namespace Redisprefixtest

/-! ## Data model -/

/-- A Go `interface{}` value as it occurs in an argument slice. Only the
string case is inspected by the hook (`args[1].(string)`). -/
inductive Arg where
  | str (s : String)
  | int (n : Int)
  | bytes (b : List Nat)
  | null
  deriving DecidableEq, Repr

/-- A Go `error` value that is not nil; `msg` is what `Error()` returns. -/
structure Error where
  msg : String
  deriving DecidableEq, Repr

/-- The function `errors.New`. -/
def errors.New (text : String) : Error := ⟨text⟩

/-- A Go run-time panic. -/
inductive Panic where
  | indexOutOfRange (index length : Nat)
  | value (msg : String)
  deriving DecidableEq, Repr

/-- How a call of a Go function with result type `error` ends. -/
inductive Outcome where
  | ret (err : Option Error)
  | panic (p : Panic)
  deriving DecidableEq, Repr

/-- A `redis.Cmder`: a reference to a command. -/
abbrev Cmder := Nat

/-- The contents of the backing arrays of all argument slices. -/
abbrev Mem := Cmder → Nat → Arg

/-- The mutable state a hook function runs in: the argument arrays and
whatever else `next` reads and writes (`env`). -/
structure World (ε : Type) where
  mem : Mem
  env : ε

/-- The value of `cmd.Args()` as a list. -/
def Args (argc : Cmder → Nat) (mem : Mem) (cmd : Cmder) : List Arg :=
  (List.range (argc cmd)).map (mem cmd)

/-- The Go expression `cmd.Args()[i]`. -/
def index (argc : Cmder → Nat) (mem : Mem) (cmd : Cmder) (i : Nat) : Except Panic Arg :=
  if i < argc cmd then .ok (mem cmd i) else .error (.indexOutOfRange i (argc cmd))

/-- Overwrite one element of a backing array. -/
def write (mem : Mem) (cmd : Cmder) (i : Nat) (v : Arg) : Mem :=
  fun c j => if c = cmd ∧ j = i then v else mem c j

/-- The Go statement `cmd.Args()[i] = v`. -/
def assign (argc : Cmder → Nat) (mem : Mem) (cmd : Cmder) (i : Nat) (v : Arg) :
    Except Panic Mem :=
  if i < argc cmd then .ok (write mem cmd i v) else .error (.indexOutOfRange i (argc cmd))

/-- The struct `PrefixHook`. -/
structure PrefixHook where
  pfx : String
  delimiter : String
  deriving DecidableEq, Repr

/-- The type `redis.ProcessHook`. -/
abbrev ProcessHookFn (κ ε : Type) := κ → Cmder → World ε → Outcome × World ε

/-- The type `redis.ProcessPipelineHook`. -/
abbrev ProcessPipelineHookFn (κ ε : Type) := κ → List Cmder → World ε → Outcome × World ε

/-! ## The hook -/

/-- The method `PrefixHook.prefixKey`. -/
def prefixKey (argc : Cmder → Nat) (h : PrefixHook) (cmd : Cmder) (mem : Mem) :
    Except Panic (String × Mem) :=
  if argc cmd ≤ 1 then .ok ("", mem)
  else
    match index argc mem cmd 1 with
    | .error p => .error p
    | .ok (Arg.str key) =>
      match assign argc mem cmd 1 (Arg.str (h.pfx ++ h.delimiter ++ key)) with
      | .error p => .error p
      | .ok mem1 => .ok (key, mem1)
    | .ok _ => .ok ("", mem)

/-- The method `PrefixHook.restoreKey`. -/
def restoreKey (argc : Cmder → Nat) (_h : PrefixHook) (cmd : Cmder) (prev : String)
    (mem : Mem) : Except Panic Mem :=
  assign argc mem cmd 1 (Arg.str prev)

/-- A pending `defer h.restoreKey(cmd, prev)`. -/
abbrev Deferred := Cmder × String

/-- Run the deferred calls, most recently deferred first. A deferred call that
panics replaces the outcome; the remaining deferred calls still run. -/
def runDeferred (argc : Cmder → Nat) (h : PrefixHook) :
    List Deferred → Outcome → Mem → Outcome × Mem
  | [], o, mem => (o, mem)
  | (cmd, prev) :: rest, o, mem =>
    match restoreKey argc h cmd prev mem with
    | .ok mem1 => runDeferred argc h rest o mem1
    | .error p => runDeferred argc h rest (.panic p) mem

/-- The end of both hook bodies, after `next` was called:
`if err := next(...); err != nil { return err }; return nil`.
A panic of `next` leaves the body as a panic. -/
def returnOf (o : Outcome) : Outcome :=
  match o with
  | .ret (some err) => .ret (some err)
  | .ret none => .ret none
  | .panic p => .panic p

/-- The method `PrefixHook.ProcessHook`. -/
def ProcessHook {κ ε : Type} (argc : Cmder → Nat) (h : PrefixHook)
    (next : ProcessHookFn κ ε) : ProcessHookFn κ ε :=
  fun ctx cmd w =>
    match prefixKey argc h cmd w.mem with
    | .error p => (.panic p, w)
    | .ok (prev, mem1) =>
      let deferred : List Deferred := if prev ≠ "" then [(cmd, prev)] else []
      let r := next ctx cmd ⟨mem1, w.env⟩
      let d := runDeferred argc h deferred (returnOf r.1) r.2.mem
      (d.1, ⟨d.2, r.2.env⟩)

/-- The `for _, cmd := range cmds` loop of `ProcessPipelineHook`: the deferred
calls are pushed on `ds`; a panic of `prefixKey` leaves the loop. -/
def prefixEach (argc : Cmder → Nat) (h : PrefixHook) :
    List Cmder → List Deferred → Mem → Option Panic × List Deferred × Mem
  | [], ds, mem => (none, ds, mem)
  | cmd :: rest, ds, mem =>
    match prefixKey argc h cmd mem with
    | .error p => (some p, ds, mem)
    | .ok (prev, mem1) =>
      prefixEach argc h rest (if prev ≠ "" then (cmd, prev) :: ds else ds) mem1

/-- The method `PrefixHook.ProcessPipelineHook`. -/
def ProcessPipelineHook {κ ε : Type} (argc : Cmder → Nat) (h : PrefixHook)
    (next : ProcessPipelineHookFn κ ε) : ProcessPipelineHookFn κ ε :=
  fun ctx cmds w =>
    match prefixEach argc h cmds [] w.mem with
    | (some p, ds, mem1) =>
      let d := runDeferred argc h ds (.panic p) mem1
      (d.1, ⟨d.2, w.env⟩)
    | (none, ds, mem1) =>
      let r := next ctx cmds ⟨mem1, w.env⟩
      let d := runDeferred argc h ds (returnOf r.1) r.2.mem
      (d.1, ⟨d.2, r.2.env⟩)

/-! ## Options -/

/-- The struct `options`. -/
structure options where
  pfx : String
  delimiter : String
  deriving DecidableEq, Repr

/-- The type `Option` of the package: `func(*options) error`. -/
abbrev HookOption := options → Option Error × options

/-- The function `WithDelimiter`. -/
def WithDelimiter (delimiter : String) : HookOption :=
  fun o =>
    if delimiter = "" then (some (errors.New "WithDelimiter: cannot be empty"), o)
    else (none, { o with delimiter := delimiter })

/-- The function `WithOptions`. -/
def WithOptions : List HookOption → HookOption
  | [], o => (none, o)
  | opt :: rest, o =>
    match opt o with
    | (some err, o1) => (some err, o1)
    | (none, o1) => WithOptions rest o1

/-- The part of `testing.TB` that `New` uses: the test name, and the record
of `Fatal` calls (the messages of the reported errors). After `Fatal` the
calling goroutine is stopped. -/
structure TB where
  Name : String
  fatals : List String
  deriving DecidableEq, Repr

/-- The method `tb.Fatal(err)`. -/
def TB.Fatal (tb : TB) (err : Error) : TB :=
  { tb with fatals := tb.fatals ++ [err.msg] }

/-- The function `New`. When `tb.Fatal` is called `New` does not return: the
result holds no hook. -/
def New (tb : TB) (opts : List HookOption) : TB × Option PrefixHook :=
  let o : options := { pfx := tb.Name, delimiter := ":" }
  match WithOptions opts o with
  | (some err, _) => (tb.Fatal err, none)
  | (none, o1) => (tb, some { pfx := o1.pfx, delimiter := o1.delimiter })

/-! ## Observing `next` -/

/-- One call of a `next` of type `redis.ProcessHook`, as seen by `next`: the
context and command it was given, the command's arguments at the time of the
call, and how the call ended. -/
structure Call (κ : Type) where
  ctx : κ
  cmd : Cmder
  args : List Arg
  outcome : Outcome

/-- Wrap `next` so that every call is appended to a log kept beside `env`. -/
def spy {κ ε : Type} (argc : Cmder → Nat) (next : ProcessHookFn κ ε) :
    ProcessHookFn κ (ε × List (Call κ)) :=
  fun ctx cmd w =>
    let r := next ctx cmd ⟨w.mem, w.env.1⟩
    (r.1, ⟨r.2.mem, (r.2.env, w.env.2 ++ [⟨ctx, cmd, Args argc w.mem cmd, r.1⟩])⟩)

/-- One call of a `next` of type `redis.ProcessPipelineHook`: `args` lists the
arguments of the commands of `cmds`, in order, at the time of the call. -/
structure PipelineCall (κ : Type) where
  ctx : κ
  cmds : List Cmder
  args : List (List Arg)
  outcome : Outcome

/-- Wrap a pipeline `next` so that every call is appended to a log. -/
def spyPipeline {κ ε : Type} (argc : Cmder → Nat) (next : ProcessPipelineHookFn κ ε) :
    ProcessPipelineHookFn κ (ε × List (PipelineCall κ)) :=
  fun ctx cmds w =>
    let r := next ctx cmds ⟨w.mem, w.env.1⟩
    (r.1, ⟨r.2.mem, (r.2.env, w.env.2 ++ [⟨ctx, cmds, cmds.map (Args argc w.mem), r.1⟩])⟩)

/-- A `next` that leaves every argument array as it found it. -/
def KeepsArgs {α κ ε : Type} (next : κ → α → World ε → Outcome × World ε) : Prop :=
  ∀ ctx c w, (next ctx c w).2.mem = w.mem

/-- The key of a command, when it has one: the string at position 1. -/
def keyAt (argc : Cmder → Nat) (mem : Mem) (cmd : Cmder) : Option String :=
  if 2 ≤ argc cmd then
    match mem cmd 1 with
    | Arg.str key => some key
    | _ => none
  else none

/-- The argument list a command is expected to show to `next`: position 1
holds the prefixed key when the command has a key, nothing changes otherwise. -/
def rewritten (argc : Cmder → Nat) (h : PrefixHook) (mem : Mem) (cmd : Cmder) : List Arg :=
  match keyAt argc mem cmd with
  | some key => (Args argc mem cmd).set 1 (Arg.str (h.pfx ++ h.delimiter ++ key))
  | none => Args argc mem cmd

/-! ## A store behind the hook -/

/-- A key-value store as a map from keys to values, with the reply last
written into each command. -/
structure Store where
  kv : String → Option String
  reply : Cmder → Option String

/-- The end of the hook chain: executes `set key value` and `get key` on the
store and rejects every other command. -/
def transport {κ : Type} (argc : Cmder → Nat) : ProcessHookFn κ Store :=
  fun _ cmd w =>
    match Args argc w.mem cmd with
    | [op, Arg.str key, Arg.str value] =>
      if op = Arg.str "set" then
        (.ret none, ⟨w.mem, ⟨fun k => if k = key then some value else w.env.kv k,
          fun c => if c = cmd then some "OK" else w.env.reply c⟩⟩)
      else (.ret (some ⟨"ERR unknown command"⟩), w)
    | [op, Arg.str key] =>
      if op = Arg.str "get" then
        (.ret (if (w.env.kv key).isSome then none else some ⟨"redis: nil"⟩),
          ⟨w.mem, ⟨w.env.kv, fun c => if c = cmd then w.env.kv key else w.env.reply c⟩⟩)
      else (.ret (some ⟨"ERR unknown command"⟩), w)
    | _ => (.ret (some ⟨"ERR unknown command"⟩), w)

/-- A client with hook `h` installed issues a freshly built command with the
given arguments against the store. -/
def clientDo (h : PrefixHook) (args : List Arg) (s : Store) : Outcome × World Store :=
  ProcessHook (fun _ => args.length) h (transport (fun _ => args.length)) ()
    0 ⟨fun _ i => args.getD i Arg.null, s⟩

/-- The call `client.Set(ctx, key, value, 0)` through hook `h`: the store afterwards. -/
def clientSet (h : PrefixHook) (key value : String) (s : Store) : Store :=
  (clientDo h [Arg.str "set", Arg.str key, Arg.str value] s).2.env

/-- The call `client.Get(ctx, key).Result()` through hook `h`: the value read. -/
def clientGet (h : PrefixHook) (key : String) (s : Store) : Option String :=
  (clientDo h [Arg.str "get", Arg.str key] s).2.env.reply 0

/-- The key a hook puts on the wire for logical key `key`: argument 1 as seen
by `next` when `get key` is processed. -/
def wireKey (h : PrefixHook) (key : String) : Option Arg :=
  let args := [Arg.str "get", Arg.str key]
  let r := ProcessHook (fun _ => args.length) h
    (spy (fun _ => args.length) (fun (_ : Unit) _ (w : World Unit) => (Outcome.ret none, w))) ()
    0 ⟨fun _ i => args.getD i Arg.null, ((), [])⟩
  match r.2.env.2 with
  | [call] => call.args.get? 1
  | _ => none

/-- One step of two test scopes that share a store: scope `b` sets the key
to its value, or scope `b` reads the key. -/
inductive Op where
  | set (b : Bool)
  | get (b : Bool)
  deriving DecidableEq, Repr

/-- Run one step: scope `b` works through its own hook `hook b` and writes its
own value `value b`. -/
def runOp (hook : Bool → PrefixHook) (value : Bool → String) (key : String)
    (s : Store) : Op → Store
  | Op.set b => clientSet (hook b) key (value b) s
  | Op.get b => (clientDo (hook b) [Arg.str "get", Arg.str key] s).2.env

/-- The configuration after the options of the list were applied in list
order, each to the configuration left by the one before it. -/
def applyAll (opts : List HookOption) (o : options) : options :=
  opts.foldl (fun c opt => (opt c).2) o

/-- Every option of the list returns no error when the options are applied in
list order starting from `o`. -/
def AllSucceed : List HookOption → options → Prop
  | [], _ => True
  | opt :: rest, o => (opt o).1 = none ∧ AllSucceed rest (opt o).2

/-- The type `redis.DialHook`: a function of a context, a network and an
address; `ρ` stands for what dialing yields. -/
abbrev DialHookFn (κ ρ : Type) := κ → String → String → ρ

/-- The method `PrefixHook.DialHook`. -/
def DialHook {κ ρ : Type} (_h : PrefixHook) (next : DialHookFn κ ρ) : DialHookFn κ ρ :=
  next

/-- The options a caller can build from the public constructors:
`WithDelimiter d`, and `WithOptions` of options built the same way. -/
inductive Buildable : HookOption → Prop where
  | withDelimiter (d : String) : Buildable (WithDelimiter d)
  | withOptions (opts : List HookOption) (hopts : ∀ opt ∈ opts, Buildable opt) :
      Buildable (WithOptions opts)

/-- An option built from the public constructors that holds `WithDelimiter ""`:
either it is `WithDelimiter ""`, or it is `WithOptions` of a list with such an
option at some place, after options built from the public constructors. -/
inductive HasEmptyDelimiter : HookOption → Prop where
  | here : HasEmptyDelimiter (WithDelimiter "")
  | nested (pre post : List HookOption) (f : HookOption)
      (hpre : ∀ opt ∈ pre, Buildable opt) (hf : HasEmptyDelimiter f) :
      HasEmptyDelimiter (WithOptions (pre ++ f :: post))

/-- Remove the first `lead.length` characters of `s`: undoes putting `lead`
in front of a key. -/
def stripLeading (lead s : String) : String :=
  ⟨s.data.drop lead.data.length⟩

/-! ## The pipeline loop without its error plumbing -/

/-- The effect of one `prefixKey` call on the memory. -/
def step (argc : Cmder → Nat) (h : PrefixHook) (mem : Mem) (cmd : Cmder) : Mem :=
  match keyAt argc mem cmd with
  | some key => write mem cmd 1 (Arg.str (h.pfx ++ h.delimiter ++ key))
  | none => mem

/-- The memory after the loop of `ProcessPipelineHook`. -/
def prefixed (argc : Cmder → Nat) (h : PrefixHook) (cmds : List Cmder) (mem : Mem) : Mem :=
  cmds.foldl (step argc h) mem

/-- The deferred calls after the loop of `ProcessPipelineHook`, most recent first. -/
def pending (argc : Cmder → Nat) (h : PrefixHook) : List Cmder → Mem → List Deferred
  | [], _ => []
  | cmd :: rest, mem =>
    pending argc h rest (step argc h mem cmd) ++
      (match keyAt argc mem cmd with
        | some key => if key ≠ "" then [(cmd, key)] else []
        | none => [])

/-- The effect of running deferred calls none of which panics. -/
def undo (ds : List Deferred) (mem : Mem) : Mem :=
  ds.foldl (fun m d => write m d.1 1 (Arg.str d.2)) mem

/-! ## Concrete inputs -/

/-- Every command of the examples has two arguments. -/
def exampleArgc : Cmder → Nat := fun _ => 2

/-- A world in which every command is `get key`. -/
def exampleWorld (key : String) : World Unit :=
  ⟨fun _ i => if i = 0 then Arg.str "get" else Arg.str key, ()⟩

/-- A `next` that succeeds and touches nothing. -/
def exampleNext {α : Type} : Unit → α → World Unit → Outcome × World Unit :=
  fun _ _ w => (Outcome.ret none, w)

/-- A `next` that fails and touches nothing. -/
def exampleFailingNext {α : Type} : Unit → α → World Unit → Outcome × World Unit :=
  fun _ _ w => (Outcome.ret (some ⟨"connection refused"⟩), w)

/-- A world in which every command is `select 2`: argument 1 is not a string. -/
def exampleSelectWorld : World Unit :=
  ⟨fun _ i => if i = 0 then Arg.str "select" else Arg.int 2, ()⟩

/-- A world for a batch: command 0 is `incr ""`, every other command is `incr "a"`. -/
def exampleBatchWorld : World Unit :=
  ⟨fun c i => if i = 0 then Arg.str "incr" else if c = 0 then Arg.str "" else Arg.str "a", ()⟩

/-- A world in which every command is `incr X`. -/
def exampleIncrWorld : World Unit :=
  ⟨fun _ i => if i = 0 then Arg.str "incr" else Arg.str "X", ()⟩

/-! ## Memory and argument lists -/

theorem write_same (mem : Mem) (cmd : Cmder) (i : Nat) (v : Arg) :
    write mem cmd i v cmd i = v := by
  simp [write]

theorem write_other_index (mem : Mem) (cmd : Cmder) (i j : Nat) (v : Arg) (hj : j ≠ i) :
    write mem cmd i v cmd j = mem cmd j := by
  simp [write, hj]

theorem write_other_cmd (mem : Mem) (cmd c : Cmder) (i : Nat) (v : Arg) (hc : c ≠ cmd) :
    write mem cmd i v c = mem c := by
  funext j
  simp [write, hc]

/-- Writing back the value that was overwritten restores the memory. -/
theorem write_write_back (mem : Mem) (cmd : Cmder) (i : Nat) (v : Arg) :
    write (write mem cmd i v) cmd i (mem cmd i) = mem := by
  funext c j
  by_cases hcj : c = cmd ∧ j = i
  · obtain ⟨rfl, rfl⟩ := hcj
    simp [write]
  · simp [write, hcj]

theorem Args_length (argc : Cmder → Nat) (mem : Mem) (cmd : Cmder) :
    (Args argc mem cmd).length = argc cmd := by
  simp [Args]

theorem Args_get? (argc : Cmder → Nat) (mem : Mem) (cmd : Cmder) (i : Nat) :
    (Args argc mem cmd)[i]? = if i < argc cmd then some (mem cmd i) else none := by
  unfold Args
  by_cases hi : i < argc cmd
  · simp [hi, List.getElem?_map, List.getElem?_range]
  · simp [hi]
    omega

theorem Args_write_same (argc : Cmder → Nat) (mem : Mem) (cmd : Cmder) (i : Nat) (v : Arg) :
    Args argc (write mem cmd i v) cmd = (Args argc mem cmd).set i v := by
  apply List.ext_getElem?
  intro j
  rw [Args_get?, List.getElem?_set, Args_get?, Args_length]
  by_cases hji : i = j
  · subst hji
    simp [write]
  · have hji2 : j ≠ i := fun e => hji e.symm
    simp [write, hji, hji2]

theorem Args_write_other (argc : Cmder → Nat) (mem : Mem) (cmd c : Cmder) (i : Nat) (v : Arg)
    (hc : c ≠ cmd) : Args argc (write mem cmd i v) c = Args argc mem c := by
  unfold Args
  rw [write_other_cmd mem cmd c i v hc]

/-! ## prefixKey and restoreKey -/

/-- What `prefixKey` does, in one equation: it never panics; a command with a
key has the key replaced and returned, any other command is left alone. -/
theorem prefixKey_eq (argc : Cmder → Nat) (h : PrefixHook) (cmd : Cmder) (mem : Mem) :
    prefixKey argc h cmd mem =
      .ok (match keyAt argc mem cmd with
        | some key => (key, write mem cmd 1 (Arg.str (h.pfx ++ h.delimiter ++ key)))
        | none => ("", mem)) := by
  unfold prefixKey keyAt index assign
  by_cases hlen : argc cmd ≤ 1
  · have h2 : ¬ 2 ≤ argc cmd := by omega
    simp [hlen, h2]
  · have h2 : 2 ≤ argc cmd := by omega
    have h1 : 1 < argc cmd := by omega
    simp only [hlen, h2, h1, if_true, if_false]
    cases hk : mem cmd 1 <;> simp

theorem keyAt_of_str (argc : Cmder → Nat) (mem : Mem) (cmd : Cmder) (key : String)
    (hlen : 2 ≤ argc cmd) (hkey : mem cmd 1 = Arg.str key) :
    keyAt argc mem cmd = some key := by
  simp [keyAt, hlen, hkey]

theorem keyAt_eq_some (argc : Cmder → Nat) (mem : Mem) (cmd : Cmder) (key : String)
    (hk : keyAt argc mem cmd = some key) : 2 ≤ argc cmd ∧ mem cmd 1 = Arg.str key := by
  unfold keyAt at hk
  by_cases hlen : 2 ≤ argc cmd
  · rw [if_pos hlen] at hk
    refine ⟨hlen, ?_⟩
    cases hm : mem cmd 1 <;> rw [hm] at hk <;> simp at hk
    rw [hk]
  · rw [if_neg hlen] at hk
    cases hk

theorem keyAt_of_malformed (argc : Cmder → Nat) (mem : Mem) (cmd : Cmder)
    (hbad : argc cmd ≤ 1 ∨ ∀ s, mem cmd 1 ≠ Arg.str s) : keyAt argc mem cmd = none := by
  cases hk : keyAt argc mem cmd with
  | none => rfl
  | some key =>
    obtain ⟨hlen, hkey⟩ := keyAt_eq_some argc mem cmd key hk
    rcases hbad with hb | hb
    · omega
    · exact absurd hkey (hb key)

theorem returnOf_eq (o : Outcome) : returnOf o = o := by
  cases o with
  | ret err => cases err <;> rfl
  | panic p => rfl

theorem restoreKey_eq (argc : Cmder → Nat) (h : PrefixHook) (cmd : Cmder) (prev : String)
    (mem : Mem) (hlen : 2 ≤ argc cmd) :
    restoreKey argc h cmd prev mem = .ok (write mem cmd 1 (Arg.str prev)) := by
  have h1 : 1 < argc cmd := by omega
  simp [restoreKey, assign, h1]

/-- The body of `ProcessHook` for a command with key `key`. -/
theorem ProcessHook_of_key {κ ε : Type} (argc : Cmder → Nat) (h : PrefixHook)
    (next : ProcessHookFn κ ε) (ctx : κ) (cmd : Cmder) (w : World ε) (key : String)
    (hk : keyAt argc w.mem cmd = some key) :
    ProcessHook argc h next ctx cmd w =
      (let r := next ctx cmd ⟨write w.mem cmd 1 (Arg.str (h.pfx ++ h.delimiter ++ key)), w.env⟩
       (r.1, ⟨if key ≠ "" then write r.2.mem cmd 1 (Arg.str key) else r.2.mem, r.2.env⟩)) := by
  have hlen := (keyAt_eq_some argc w.mem cmd key hk).1
  unfold ProcessHook
  rw [prefixKey_eq, hk]
  by_cases he : key = ""
  · simp [he, runDeferred, returnOf_eq]
  · simp [he, runDeferred, returnOf_eq, restoreKey_eq argc h cmd key _ hlen]

/-- The body of `ProcessHook` for a command without a key: the hook function
is `next`. -/
theorem ProcessHook_of_no_key {κ ε : Type} (argc : Cmder → Nat) (h : PrefixHook)
    (next : ProcessHookFn κ ε) (ctx : κ) (cmd : Cmder) (w : World ε)
    (hk : keyAt argc w.mem cmd = none) :
    ProcessHook argc h next ctx cmd w = next ctx cmd w := by
  unfold ProcessHook
  rw [prefixKey_eq, hk]
  simp [runDeferred, returnOf_eq]

/-- The log kept by `spy` after `ProcessHook` handled a command with a key. -/
theorem ProcessHook_spy_log {κ ε : Type} (argc : Cmder → Nat) (h : PrefixHook)
    (next : ProcessHookFn κ ε) (ctx : κ) (cmd : Cmder) (mem : Mem) (env : ε)
    (log : List (Call κ)) (key : String) (hk : keyAt argc mem cmd = some key) :
    (ProcessHook argc h (spy argc next) ctx cmd ⟨mem, (env, log)⟩).2.env.2 =
      log ++ [⟨ctx, cmd, (Args argc mem cmd).set 1 (Arg.str (h.pfx ++ h.delimiter ++ key)),
        (next ctx cmd ⟨write mem cmd 1 (Arg.str (h.pfx ++ h.delimiter ++ key)), env⟩).1⟩] := by
  rw [ProcessHook_of_key argc h (spy argc next) ctx cmd ⟨mem, (env, log)⟩ key hk]
  simp [spy, Args_write_same]

/-- C1: for every hook and every command with at least 2 arguments and a string
at position 1, the function returned by `ProcessHook` calls `next` exactly once
(the log of calls has one entry, for the same context and command), and the
arguments `next` observes have `prefix + delimiter + originalKey` at position 1,
the same length as the original arguments, and the original value at every
other position. -/
theorem ProcessHook_calls_next_once_with_prefixed_key {κ ε : Type} (argc : Cmder → Nat)
    (h : PrefixHook) (next : ProcessHookFn κ ε) (ctx : κ) (cmd : Cmder) (w : World ε)
    (key : String) (hlen : 2 ≤ argc cmd) (hkey : w.mem cmd 1 = Arg.str key) :
    ∃ call : Call κ,
      (ProcessHook argc h (spy argc next) ctx cmd ⟨w.mem, (w.env, [])⟩).2.env.2 = [call] ∧
      call.ctx = ctx ∧ call.cmd = cmd ∧
      call.args[1]? = some (Arg.str (h.pfx ++ h.delimiter ++ key)) ∧
      call.args.length = (Args argc w.mem cmd).length ∧
      ∀ i, i ≠ 1 → call.args[i]? = (Args argc w.mem cmd)[i]? := by
  have hk := keyAt_of_str argc w.mem cmd key hlen hkey
  refine ⟨⟨ctx, cmd, (Args argc w.mem cmd).set 1 (Arg.str (h.pfx ++ h.delimiter ++ key)),
    (next ctx cmd ⟨write w.mem cmd 1 (Arg.str (h.pfx ++ h.delimiter ++ key)), w.env⟩).1⟩,
    ?_, rfl, rfl, ?_, ?_, ?_⟩
  · rw [ProcessHook_spy_log argc h next ctx cmd w.mem w.env [] key hk]
    rfl
  · have h1 : 1 < (Args argc w.mem cmd).length := by rw [Args_length]; omega
    simp [List.getElem?_set, h1]
  · simp
  · intro i hi
    have hi2 : ¬ 1 = i := fun e => hi e.symm
    simp [List.getElem?_set, hi2]

theorem ProcessHook_calls_next_once_with_prefixed_key_witness :
    2 ≤ exampleArgc 0 ∧ (exampleWorld "foo").mem 0 1 = Arg.str "foo" ∧
    ∃ call : Call Unit,
      (ProcessHook exampleArgc ⟨"T", ":"⟩ (spy exampleArgc exampleNext) () 0
        ⟨(exampleWorld "foo").mem, ((exampleWorld "foo").env, [])⟩).2.env.2 = [call] ∧
      call.ctx = () ∧ call.cmd = 0 ∧
      call.args[1]? = some (Arg.str ("T" ++ ":" ++ "foo")) ∧
      call.args.length = (Args exampleArgc (exampleWorld "foo").mem 0).length ∧
      ∀ i, i ≠ 1 → call.args[i]? = (Args exampleArgc (exampleWorld "foo").mem 0)[i]? :=
  ⟨by decide, rfl,
    ProcessHook_calls_next_once_with_prefixed_key exampleArgc ⟨"T", ":"⟩ exampleNext () 0
      (exampleWorld "foo") "foo" (by decide) rfl⟩

/-! ## The pipeline loop -/

theorem prefixKey_eq_step (argc : Cmder → Nat) (h : PrefixHook) (cmd : Cmder) (mem : Mem) :
    prefixKey argc h cmd mem = .ok ((keyAt argc mem cmd).getD "", step argc h mem cmd) := by
  rw [prefixKey_eq]
  unfold step
  cases keyAt argc mem cmd <;> rfl

theorem prefixEach_eq (argc : Cmder → Nat) (h : PrefixHook) (cmds : List Cmder) :
    ∀ (ds : List Deferred) (mem : Mem),
      prefixEach argc h cmds ds mem =
        (none, pending argc h cmds mem ++ ds, prefixed argc h cmds mem) := by
  induction cmds with
  | nil => intro ds mem; rfl
  | cons c rest ih =>
    intro ds mem
    unfold prefixEach
    rw [prefixKey_eq_step]
    simp only [ih, pending, prefixed, List.foldl_cons]
    cases hk : keyAt argc mem c with
    | none => simp
    | some key =>
      by_cases he : key = ""
      · simp [he]
      · simp [he]

theorem pending_argc (argc : Cmder → Nat) (h : PrefixHook) (cmds : List Cmder) :
    ∀ (mem : Mem) (d : Deferred), d ∈ pending argc h cmds mem → 2 ≤ argc d.1 := by
  induction cmds with
  | nil => intro mem d hd; simp [pending] at hd
  | cons c rest ih =>
    intro mem d hd
    simp only [pending, List.mem_append] at hd
    rcases hd with hd | hd
    · exact ih _ d hd
    · cases hk : keyAt argc mem c with
      | none => simp [hk] at hd
      | some key =>
        rw [hk] at hd
        by_cases he : key = ""
        · simp [he] at hd
        · simp [he] at hd
          rw [hd]
          exact (keyAt_eq_some argc mem c key hk).1

theorem runDeferred_eq (argc : Cmder → Nat) (h : PrefixHook) (ds : List Deferred) :
    ∀ (o : Outcome) (mem : Mem), (∀ d ∈ ds, 2 ≤ argc d.1) →
      runDeferred argc h ds o mem = (o, undo ds mem) := by
  induction ds with
  | nil => intro o mem _; rfl
  | cons d rest ih =>
    intro o mem hd
    obtain ⟨c, prev⟩ := d
    unfold runDeferred
    rw [restoreKey_eq argc h c prev mem (hd (c, prev) (List.mem_cons_self _ _))]
    simp only
    rw [ih o _ (fun d hdr => hd d (List.mem_cons_of_mem _ hdr))]
    rfl

/-- The body of `ProcessPipelineHook`: it never panics on its own account; it
rewrites, calls `next` once, and runs the deferred calls. -/
theorem ProcessPipelineHook_eq {κ ε : Type} (argc : Cmder → Nat) (h : PrefixHook)
    (next : ProcessPipelineHookFn κ ε) (ctx : κ) (cmds : List Cmder) (w : World ε) :
    ProcessPipelineHook argc h next ctx cmds w =
      (let r := next ctx cmds ⟨prefixed argc h cmds w.mem, w.env⟩
       (r.1, ⟨undo (pending argc h cmds w.mem) r.2.mem, r.2.env⟩)) := by
  unfold ProcessPipelineHook
  rw [prefixEach_eq]
  simp only [List.append_nil]
  rw [runDeferred_eq argc h _ _ _ (pending_argc argc h cmds w.mem), returnOf_eq]

theorem keyAt_congr (argc : Cmder → Nat) (m1 m2 : Mem) (c : Cmder) (hm : m1 c = m2 c) :
    keyAt argc m1 c = keyAt argc m2 c := by
  unfold keyAt
  rw [hm]

theorem Args_congr (argc : Cmder → Nat) (m1 m2 : Mem) (c : Cmder) (hm : m1 c = m2 c) :
    Args argc m1 c = Args argc m2 c := by
  unfold Args
  rw [hm]

theorem rewritten_congr (argc : Cmder → Nat) (h : PrefixHook) (m1 m2 : Mem) (c : Cmder)
    (hm : m1 c = m2 c) : rewritten argc h m1 c = rewritten argc h m2 c := by
  unfold rewritten
  rw [keyAt_congr argc m1 m2 c hm, Args_congr argc m1 m2 c hm]

theorem step_other (argc : Cmder → Nat) (h : PrefixHook) (mem : Mem) (cmd c : Cmder)
    (hc : c ≠ cmd) : step argc h mem cmd c = mem c := by
  unfold step
  cases keyAt argc mem cmd with
  | none => rfl
  | some key => exact write_other_cmd mem cmd c 1 _ hc

theorem step_no_key (argc : Cmder → Nat) (h : PrefixHook) (mem : Mem) (cmd c : Cmder)
    (hk : keyAt argc mem c = none) : step argc h mem cmd c = mem c := by
  by_cases hc : c = cmd
  · subst hc
    unfold step
    rw [hk]
  · exact step_other argc h mem cmd c hc

theorem Args_step (argc : Cmder → Nat) (h : PrefixHook) (mem : Mem) (cmd : Cmder) :
    Args argc (step argc h mem cmd) cmd = rewritten argc h mem cmd := by
  unfold step rewritten
  cases keyAt argc mem cmd with
  | none => rfl
  | some key => exact Args_write_same argc mem cmd 1 _

/-- The loop leaves a command that is not in the batch alone. -/
theorem prefixed_not_mem (argc : Cmder → Nat) (h : PrefixHook) (cmds : List Cmder) :
    ∀ (mem : Mem) (c : Cmder), c ∉ cmds → prefixed argc h cmds mem c = mem c := by
  induction cmds with
  | nil => intro mem c _; rfl
  | cons x rest ih =>
    intro mem c hc
    have hcx : c ≠ x := fun e => hc (e ▸ List.mem_cons_self _ _)
    have hcr : c ∉ rest := fun e => hc (List.mem_cons_of_mem _ e)
    show prefixed argc h rest (step argc h mem x) c = mem c
    rw [ih _ c hcr, step_other argc h mem x c hcx]

/-- The loop leaves a command without a key alone, and defers nothing for it. -/
theorem prefixed_no_key (argc : Cmder → Nat) (h : PrefixHook) (cmds : List Cmder) :
    ∀ (mem : Mem) (c : Cmder), keyAt argc mem c = none →
      prefixed argc h cmds mem c = mem c ∧ ∀ d ∈ pending argc h cmds mem, d.1 ≠ c := by
  induction cmds with
  | nil =>
    intro mem c _
    exact ⟨rfl, fun d hd => by simp [pending] at hd⟩
  | cons x rest ih =>
    intro mem c hk
    have hs : step argc h mem x c = mem c := step_no_key argc h mem x c hk
    have hk1 : keyAt argc (step argc h mem x) c = none := by
      rw [keyAt_congr argc _ mem c hs]; exact hk
    obtain ⟨ih1, ih2⟩ := ih (step argc h mem x) c hk1
    refine ⟨?_, ?_⟩
    · show prefixed argc h rest (step argc h mem x) c = mem c
      rw [ih1, hs]
    · intro d hd
      simp only [pending, List.mem_append] at hd
      rcases hd with hd | hd
      · exact ih2 d hd
      · cases hkx : keyAt argc mem x with
        | none => simp [hkx] at hd
        | some key =>
          rw [hkx] at hd
          by_cases he : key = ""
          · simp [he] at hd
          · simp [he] at hd
            rw [hd]
            intro hxc
            simp only at hxc
            rw [hxc, hk] at hkx
            cases hkx

theorem undo_other (ds : List Deferred) :
    ∀ (mem : Mem) (c : Cmder), (∀ d ∈ ds, d.1 ≠ c) → undo ds mem c = mem c := by
  induction ds with
  | nil => intro mem c _; rfl
  | cons d rest ih =>
    intro mem c hd
    show undo rest (write mem d.1 1 (Arg.str d.2)) c = mem c
    rw [ih _ c (fun e he => hd e (List.mem_cons_of_mem _ he))]
    exact write_other_cmd mem d.1 c 1 _ (fun e => hd d (List.mem_cons_self _ _) e.symm)

/-- In a batch of distinct commands, after the loop every command of the batch
shows its rewritten argument list. -/
theorem Args_prefixed (argc : Cmder → Nat) (h : PrefixHook) (cmds : List Cmder) :
    ∀ (mem : Mem), cmds.Nodup → ∀ c ∈ cmds,
      Args argc (prefixed argc h cmds mem) c = rewritten argc h mem c := by
  induction cmds with
  | nil => intro mem _ c hc; cases hc
  | cons x rest ih =>
    intro mem hnd c hc
    obtain ⟨hx, hrest⟩ := List.nodup_cons.mp hnd
    show Args argc (prefixed argc h rest (step argc h mem x)) c = rewritten argc h mem c
    by_cases hcx : c = x
    · subst hcx
      rw [Args_congr argc _ _ c (prefixed_not_mem argc h rest _ c hx)]
      exact Args_step argc h mem c
    · have hcr : c ∈ rest := by
        rcases List.mem_cons.mp hc with e | e
        · exact absurd e hcx
        · exact e
      rw [ih _ hrest c hcr]
      exact rewritten_congr argc h _ _ c (step_other argc h mem x c hcx)

/-! ## Single commands -/

/-- The body of `ProcessHook`: it never panics on its own account; it rewrites,
calls `next` once, and runs the deferred call if there is one. -/
theorem ProcessHook_eq {κ ε : Type} (argc : Cmder → Nat) (h : PrefixHook)
    (next : ProcessHookFn κ ε) (ctx : κ) (cmd : Cmder) (w : World ε) :
    ProcessHook argc h next ctx cmd w =
      (let r := next ctx cmd ⟨step argc h w.mem cmd, w.env⟩
       (r.1, ⟨undo (pending argc h [cmd] w.mem) r.2.mem, r.2.env⟩)) := by
  cases hk : keyAt argc w.mem cmd with
  | none =>
    rw [ProcessHook_of_no_key argc h next ctx cmd w hk]
    simp [step, pending, undo, hk]
  | some key =>
    rw [ProcessHook_of_key argc h next ctx cmd w key hk]
    by_cases he : key = ""
    · simp [step, pending, undo, hk, he]
    · simp [step, pending, undo, hk, he]

/-- When `next` keeps the arguments, what `ProcessHook` leaves in memory. -/
theorem ProcessHook_final_mem {κ ε : Type} (argc : Cmder → Nat) (h : PrefixHook)
    (next : ProcessHookFn κ ε) (hnext : KeepsArgs next) (ctx : κ) (cmd : Cmder) (w : World ε)
    (key : String) (hk : keyAt argc w.mem cmd = some key) :
    (ProcessHook argc h next ctx cmd w).2.mem =
      if key ≠ "" then w.mem else write w.mem cmd 1 (Arg.str (h.pfx ++ h.delimiter ++ key)) := by
  rw [ProcessHook_of_key argc h next ctx cmd w key hk]
  simp only [hnext _ _ _]
  by_cases he : key = ""
  · simp [he]
  · simp only [he, ne_eq, not_false_eq_true, if_true]
    rw [← (keyAt_eq_some argc w.mem cmd key hk).2]
    exact write_write_back w.mem cmd 1 _

/-- C2 (failing input): the hook `("T", ":")` handles `get ""` with a `next`
that succeeds and modifies nothing. Before the call the arguments are
`["get", ""]`; after the call they are `["get", "T:"]`: the empty key is
rewritten but not restored, because `prefixKey` returns the key `""` and
`ProcessHook` reads `""` as "nothing to restore". The same happens when `next`
returns an error. -/
theorem ProcessHook_empty_key_not_restored :
    KeepsArgs (exampleNext : ProcessHookFn Unit Unit) ∧
    Args exampleArgc (exampleWorld "").mem 0 = [Arg.str "get", Arg.str ""] ∧
    (ProcessHook exampleArgc ⟨"T", ":"⟩ exampleNext () 0 (exampleWorld "")).1 = Outcome.ret none ∧
    Args exampleArgc (ProcessHook exampleArgc ⟨"T", ":"⟩ exampleNext () 0 (exampleWorld "")).2.mem 0
      = [Arg.str "get", Arg.str "T:"] ∧
    KeepsArgs (exampleFailingNext : ProcessHookFn Unit Unit) ∧
    Args exampleArgc
        (ProcessHook exampleArgc ⟨"T", ":"⟩ exampleFailingNext () 0 (exampleWorld "")).2.mem 0
      = [Arg.str "get", Arg.str "T:"] :=
  ⟨fun _ _ _ => rfl, by decide, by decide, by decide, fun _ _ _ => rfl, by decide⟩

/-- C4 (failing input): the hook `("T", ":")` handles the batch of the two
distinct commands `incr ""` and `incr "a"` (distinct keys) with a `next` that
succeeds and modifies nothing. Afterwards the second command shows its own key
`"a"` again, but the first shows `"T:"` where its own original key `""` was. -/
theorem ProcessPipelineHook_empty_key_not_restored :
    KeepsArgs (exampleNext : ProcessPipelineHookFn Unit Unit) ∧
    [0, 1].map (Args exampleArgc exampleBatchWorld.mem)
      = [[Arg.str "incr", Arg.str ""], [Arg.str "incr", Arg.str "a"]] ∧
    (ProcessPipelineHook exampleArgc ⟨"T", ":"⟩ exampleNext () [0, 1] exampleBatchWorld).1
      = Outcome.ret none ∧
    [0, 1].map (Args exampleArgc
        (ProcessPipelineHook exampleArgc ⟨"T", ":"⟩ exampleNext () [0, 1] exampleBatchWorld).2.mem)
      = [[Arg.str "incr", Arg.str "T:"], [Arg.str "incr", Arg.str "a"]] :=
  ⟨fun _ _ _ => rfl, by decide, by decide, by decide⟩

/-- The run of `ProcessPipelineHook` over a spied `next`. -/
theorem ProcessPipelineHook_spy {κ ε : Type} (argc : Cmder → Nat) (h : PrefixHook)
    (next : ProcessPipelineHookFn κ ε) (ctx : κ) (cmds : List Cmder) (mem : Mem) (env : ε)
    (log : List (PipelineCall κ)) :
    ProcessPipelineHook argc h (spyPipeline argc next) ctx cmds ⟨mem, (env, log)⟩ =
      ((ProcessPipelineHook argc h next ctx cmds ⟨mem, env⟩).1,
        ⟨(ProcessPipelineHook argc h next ctx cmds ⟨mem, env⟩).2.mem,
          ((ProcessPipelineHook argc h next ctx cmds ⟨mem, env⟩).2.env,
            log ++ [⟨ctx, cmds, cmds.map (Args argc (prefixed argc h cmds mem)),
              (ProcessPipelineHook argc h next ctx cmds ⟨mem, env⟩).1⟩])⟩) := by
  rw [ProcessPipelineHook_eq, ProcessPipelineHook_eq]
  rfl

/-- The run of `ProcessHook` over a spied `next`. -/
theorem ProcessHook_spy {κ ε : Type} (argc : Cmder → Nat) (h : PrefixHook)
    (next : ProcessHookFn κ ε) (ctx : κ) (cmd : Cmder) (mem : Mem) (env : ε)
    (log : List (Call κ)) :
    ProcessHook argc h (spy argc next) ctx cmd ⟨mem, (env, log)⟩ =
      ((ProcessHook argc h next ctx cmd ⟨mem, env⟩).1,
        ⟨(ProcessHook argc h next ctx cmd ⟨mem, env⟩).2.mem,
          ((ProcessHook argc h next ctx cmd ⟨mem, env⟩).2.env,
            log ++ [⟨ctx, cmd, Args argc (step argc h mem cmd) cmd,
              (ProcessHook argc h next ctx cmd ⟨mem, env⟩).1⟩])⟩) := by
  rw [ProcessHook_eq, ProcessHook_eq]
  rfl

/-- C3: a command with 0 or 1 arguments, or whose argument 1 is not a string,
is never mutated. `prefixKey` returns without a panic (no index out of range)
and leaves the memory as it is. The function returned by `ProcessHook` behaves
exactly as `next` on it: `next` gets the original state and its result is the
result. In a batch, the function returned by `ProcessPipelineHook` calls `next`
once, `next` observes the original argument list at every position of the
batch that holds the command, the hook adds no panic to the outcome of `next`,
and when `next` leaves the command's arguments alone they are the original
ones after the call. -/
theorem malformed_command_never_mutated {κ ε : Type} (argc : Cmder → Nat) (h : PrefixHook)
    (cmd : Cmder) (mem : Mem) (hbad : argc cmd ≤ 1 ∨ ∀ s, mem cmd 1 ≠ Arg.str s) :
    prefixKey argc h cmd mem = .ok ("", mem) ∧
    (∀ (next : ProcessHookFn κ ε) (ctx : κ) (env : ε),
      ProcessHook argc h next ctx cmd ⟨mem, env⟩ = next ctx cmd ⟨mem, env⟩) ∧
    (∀ (next : ProcessPipelineHookFn κ ε) (ctx : κ) (cmds : List Cmder) (env : ε),
      ∃ call : PipelineCall κ,
        (ProcessPipelineHook argc h (spyPipeline argc next) ctx cmds
          ⟨mem, (env, [])⟩).2.env.2 = [call] ∧
        call.cmds = cmds ∧
        (∀ i : Nat, cmds[i]? = some cmd → call.args[i]? = some (Args argc mem cmd)) ∧
        (ProcessPipelineHook argc h next ctx cmds ⟨mem, env⟩).1 = call.outcome ∧
        ((∀ ctx1 cs w, (next ctx1 cs w).2.mem cmd = w.mem cmd) →
          Args argc (ProcessPipelineHook argc h next ctx cmds ⟨mem, env⟩).2.mem cmd
            = Args argc mem cmd)) := by
  have hk : keyAt argc mem cmd = none := keyAt_of_malformed argc mem cmd hbad
  refine ⟨?_, ?_, ?_⟩
  · rw [prefixKey_eq, hk]
  · intro next ctx env
    exact ProcessHook_of_no_key argc h next ctx cmd ⟨mem, env⟩ hk
  · intro next ctx cmds env
    obtain ⟨hp1, hp2⟩ := prefixed_no_key argc h cmds mem cmd hk
    refine ⟨⟨ctx, cmds, cmds.map (Args argc (prefixed argc h cmds mem)),
      (ProcessPipelineHook argc h next ctx cmds ⟨mem, env⟩).1⟩, ?_, rfl, ?_, rfl, ?_⟩
    · rw [ProcessPipelineHook_spy]
      rfl
    · intro i hi
      simp only [List.getElem?_map, hi, Option.map_some']
      rw [Args_congr argc _ mem cmd hp1]
    · intro hnext
      apply Args_congr
      rw [ProcessPipelineHook_eq]
      simp only
      rw [undo_other _ _ cmd hp2, hnext]
      exact hp1

theorem malformed_command_never_mutated_witness :
    (exampleArgc 0 ≤ 1 ∨ ∀ s, exampleSelectWorld.mem 0 1 ≠ Arg.str s) ∧
    prefixKey exampleArgc ⟨"T", ":"⟩ 0 exampleSelectWorld.mem
      = .ok ("", exampleSelectWorld.mem) ∧
    ProcessHook exampleArgc ⟨"T", ":"⟩ exampleNext () 0 ⟨exampleSelectWorld.mem, ()⟩
      = exampleNext () 0 ⟨exampleSelectWorld.mem, ()⟩ :=
  ⟨Or.inr (fun _ hs => Arg.noConfusion hs),
    (@malformed_command_never_mutated Unit Unit exampleArgc ⟨"T", ":"⟩ 0
      exampleSelectWorld.mem (Or.inr (fun _ hs => Arg.noConfusion hs))).1,
    (@malformed_command_never_mutated Unit Unit exampleArgc ⟨"T", ":"⟩ 0
      exampleSelectWorld.mem (Or.inr (fun _ hs => Arg.noConfusion hs))).2.1 exampleNext () ()⟩

theorem rewritten_of_str (argc : Cmder → Nat) (h : PrefixHook) (mem : Mem) (c : Cmder)
    (key : String) (hlen : 2 ≤ argc c) (hkey : mem c 1 = Arg.str key) :
    rewritten argc h mem c = (Args argc mem c).set 1 (Arg.str (h.pfx ++ h.delimiter ++ key)) := by
  unfold rewritten
  rw [keyAt_of_str argc mem c key hlen hkey]

theorem rewritten_of_malformed (argc : Cmder → Nat) (h : PrefixHook) (mem : Mem) (c : Cmder)
    (hbad : argc c ≤ 1 ∨ ∀ s, mem c 1 ≠ Arg.str s) :
    rewritten argc h mem c = Args argc mem c := by
  unfold rewritten
  rw [keyAt_of_malformed argc mem c hbad]

theorem rewritten_get_one (argc : Cmder → Nat) (h : PrefixHook) (mem : Mem) (c : Cmder)
    (key : String) (hlen : 2 ≤ argc c) (hkey : mem c 1 = Arg.str key) :
    (rewritten argc h mem c)[1]? = some (Arg.str (h.pfx ++ h.delimiter ++ key)) := by
  rw [rewritten_of_str argc h mem c key hlen hkey]
  have h1 : 1 < (Args argc mem c).length := by rw [Args_length]; omega
  simp [List.getElem?_set, h1]

/-- C5: for every hook and every batch of distinct commands, the function
returned by `ProcessPipelineHook` calls `next` exactly once, with the same
context and the same list of commands (same length, same order). At every
position of the batch, a command with at least 2 arguments and a string at
position 1 shows `next` its original arguments with position 1 replaced by
`prefix + delimiter + its own key`, and any other command shows its original
arguments. In particular two commands of the batch that carry the same key
both show the same prefixed key. -/
theorem ProcessPipelineHook_calls_next_once_with_prefixed_batch {κ ε : Type}
    (argc : Cmder → Nat) (h : PrefixHook) (next : ProcessPipelineHookFn κ ε) (ctx : κ)
    (cmds : List Cmder) (w : World ε) (hnd : cmds.Nodup) :
    ∃ call : PipelineCall κ,
      (ProcessPipelineHook argc h (spyPipeline argc next) ctx cmds
        ⟨w.mem, (w.env, [])⟩).2.env.2 = [call] ∧
      call.ctx = ctx ∧ call.cmds = cmds ∧ call.args.length = cmds.length ∧
      (∀ (i : Nat) (c : Cmder), cmds[i]? = some c →
        (∀ key, 2 ≤ argc c → w.mem c 1 = Arg.str key →
          call.args[i]? =
            some ((Args argc w.mem c).set 1 (Arg.str (h.pfx ++ h.delimiter ++ key)))) ∧
        ((argc c ≤ 1 ∨ ∀ s, w.mem c 1 ≠ Arg.str s) →
          call.args[i]? = some (Args argc w.mem c))) ∧
      (∀ (i j : Nat) (ci cj : Cmder) (key : String),
        cmds[i]? = some ci → cmds[j]? = some cj →
        2 ≤ argc ci → w.mem ci 1 = Arg.str key → 2 ≤ argc cj → w.mem cj 1 = Arg.str key →
        ∃ ai aj, call.args[i]? = some ai ∧ call.args[j]? = some aj ∧
          ai[1]? = some (Arg.str (h.pfx ++ h.delimiter ++ key)) ∧
          aj[1]? = some (Arg.str (h.pfx ++ h.delimiter ++ key))) := by
  have hobs : ∀ (i : Nat) (c : Cmder), cmds[i]? = some c →
      (cmds.map (Args argc (prefixed argc h cmds w.mem)))[i]? = some (rewritten argc h w.mem c) := by
    intro i c hi
    simp only [List.getElem?_map, hi, Option.map_some']
    rw [Args_prefixed argc h cmds w.mem hnd c (List.getElem?_mem hi)]
  refine ⟨⟨ctx, cmds, cmds.map (Args argc (prefixed argc h cmds w.mem)),
    (ProcessPipelineHook argc h next ctx cmds ⟨w.mem, w.env⟩).1⟩, ?_, rfl, rfl, ?_, ?_, ?_⟩
  · rw [ProcessPipelineHook_spy]
    rfl
  · simp
  · intro i c hi
    refine ⟨?_, ?_⟩
    · intro key hlen hkey
      rw [hobs i c hi, rewritten_of_str argc h w.mem c key hlen hkey]
    · intro hbad
      rw [hobs i c hi, rewritten_of_malformed argc h w.mem c hbad]
  · intro i j ci cj key hi hj hli hki hlj hkj
    exact ⟨_, _, hobs i ci hi, hobs j cj hj,
      rewritten_get_one argc h w.mem ci key hli hki,
      rewritten_get_one argc h w.mem cj key hlj hkj⟩

theorem ProcessPipelineHook_calls_next_once_with_prefixed_batch_witness :
    [0, 1, 2].Nodup ∧
    (∃ call : PipelineCall Unit,
      (ProcessPipelineHook exampleArgc ⟨"T", ":"⟩ (spyPipeline exampleArgc exampleNext) ()
        [0, 1, 2] ⟨exampleIncrWorld.mem, (exampleIncrWorld.env, [])⟩).2.env.2 = [call] ∧
      call.ctx = () ∧ call.cmds = [0, 1, 2] ∧ call.args.length = [0, 1, 2].length) ∧
    ((ProcessPipelineHook exampleArgc ⟨"T", ":"⟩ (spyPipeline exampleArgc exampleNext) ()
        [0, 1, 2] ⟨exampleIncrWorld.mem, (exampleIncrWorld.env, [])⟩).2.env.2.map
          (fun call => call.args)
      = [[[Arg.str "incr", Arg.str "T:X"], [Arg.str "incr", Arg.str "T:X"],
          [Arg.str "incr", Arg.str "T:X"]]]) :=
  ⟨by decide,
    (ProcessPipelineHook_calls_next_once_with_prefixed_batch exampleArgc ⟨"T", ":"⟩
      exampleNext () [0, 1, 2] exampleIncrWorld (by decide)).imp
      (fun _ hc => ⟨hc.1, hc.2.1, hc.2.2.1, hc.2.2.2.1⟩),
    by decide⟩

/-- C6: for every hook, every command or batch and every `next`, the functions
returned by `ProcessHook` and `ProcessPipelineHook` call `next` once and end
exactly as that call ended: they return the error value `next` returned,
return no error exactly when `next` returned no error, and add no panic. -/
theorem hook_returns_what_next_returned {κ ε : Type} (argc : Cmder → Nat) (h : PrefixHook) :
    (∀ (next : ProcessHookFn κ ε) (ctx : κ) (cmd : Cmder) (w : World ε),
      ∃ call : Call κ,
        (ProcessHook argc h (spy argc next) ctx cmd ⟨w.mem, (w.env, [])⟩).2.env.2 = [call] ∧
        (ProcessHook argc h next ctx cmd w).1 = call.outcome ∧
        ((ProcessHook argc h next ctx cmd w).1 = Outcome.ret none ↔
          call.outcome = Outcome.ret none)) ∧
    (∀ (next : ProcessPipelineHookFn κ ε) (ctx : κ) (cmds : List Cmder) (w : World ε),
      ∃ call : PipelineCall κ,
        (ProcessPipelineHook argc h (spyPipeline argc next) ctx cmds
          ⟨w.mem, (w.env, [])⟩).2.env.2 = [call] ∧
        (ProcessPipelineHook argc h next ctx cmds w).1 = call.outcome ∧
        ((ProcessPipelineHook argc h next ctx cmds w).1 = Outcome.ret none ↔
          call.outcome = Outcome.ret none)) := by
  refine ⟨?_, ?_⟩
  · intro next ctx cmd w
    refine ⟨⟨ctx, cmd, Args argc (step argc h w.mem cmd) cmd,
      (ProcessHook argc h next ctx cmd w).1⟩, ?_, rfl, Iff.rfl⟩
    rw [ProcessHook_spy]
    rfl
  · intro next ctx cmds w
    refine ⟨⟨ctx, cmds, cmds.map (Args argc (prefixed argc h cmds w.mem)),
      (ProcessPipelineHook argc h next ctx cmds w).1⟩, ?_, rfl, Iff.rfl⟩
    rw [ProcessPipelineHook_spy]
    rfl

/-! ## Keys on the wire -/

theorem str_append_right_cancel (a b c : String) (hab : a ++ c = b ++ c) : a = b := by
  apply String.ext
  have hd := congrArg String.data hab
  simp only [String.data_append] at hd
  exact List.append_cancel_right hd

theorem str_append_left_cancel (a b c : String) (hab : a ++ b = a ++ c) : b = c := by
  apply String.ext
  have hd := congrArg String.data hab
  simp only [String.data_append] at hd
  exact List.append_cancel_left hd

theorem wireKey_eq (h : PrefixHook) (key : String) :
    wireKey h key = some (Arg.str (h.pfx ++ h.delimiter ++ key)) := by
  unfold wireKey
  simp only
  rw [ProcessHook_spy_log _ h _ () 0 _ () [] key (by simp [keyAt])]
  simp [Args, List.range_succ]

theorem clientSet_eq (h : PrefixHook) (key value : String) (s : Store) :
    clientSet h key value s =
      ⟨fun k => if k = h.pfx ++ h.delimiter ++ key then some value else s.kv k,
        fun c => if c = 0 then some "OK" else s.reply c⟩ := by
  unfold clientSet clientDo
  rw [ProcessHook_of_key _ h _ () 0 _ key (by simp [keyAt])]
  simp [transport, Args, List.range_succ, write]

theorem clientGet_env (h : PrefixHook) (key : String) (s : Store) :
    (clientDo h [Arg.str "get", Arg.str key] s).2.env =
      ⟨s.kv, fun c => if c = 0 then s.kv (h.pfx ++ h.delimiter ++ key) else s.reply c⟩ := by
  unfold clientDo
  rw [ProcessHook_of_key _ h _ () 0 _ key (by simp [keyAt])]
  simp [transport, Args, List.range_succ, write]

theorem clientGet_eq (h : PrefixHook) (key : String) (s : Store) :
    clientGet h key s = s.kv (h.pfx ++ h.delimiter ++ key) := by
  unfold clientGet
  rw [clientGet_env]
  simp

/-! ## Two scopes on one store -/

theorem runOp_kv (hook : Bool → PrefixHook) (value : Bool → String) (key : String)
    (s : Store) (op : Op) :
    (runOp hook value key s op).kv =
      match op with
      | Op.set b => fun k =>
          if k = (hook b).pfx ++ (hook b).delimiter ++ key then some (value b) else s.kv k
      | Op.get _ => s.kv := by
  cases op with
  | set b => simp [runOp, clientSet_eq]
  | get b => simp [runOp, clientGet_env]

/-- Once scope `b` has set the key, its entry holds its value whatever the two
scopes do next, provided the two scopes use different keys on the wire. -/
theorem foldl_runOp_kv (hook : Bool → PrefixHook) (value : Bool → String) (key : String)
    (hwire : (hook true).pfx ++ (hook true).delimiter ++ key
      ≠ (hook false).pfx ++ (hook false).delimiter ++ key)
    (b : Bool) (tr : List Op) :
    ∀ s : Store,
      (s.kv ((hook b).pfx ++ (hook b).delimiter ++ key) = some (value b) ∨ Op.set b ∈ tr) →
      (tr.foldl (runOp hook value key) s).kv ((hook b).pfx ++ (hook b).delimiter ++ key)
        = some (value b) := by
  induction tr with
  | nil =>
    intro s hs
    rcases hs with hs | hs
    · exact hs
    · cases hs
  | cons op rest ih =>
    intro s hs
    rw [List.foldl_cons]
    apply ih
    by_cases hop : op = Op.set b
    · left
      subst hop
      rw [runOp_kv]
      simp
    · rcases hs with hs | hs
      · left
        rw [runOp_kv]
        cases op with
        | get b1 => exact hs
        | set b1 =>
          have hb : b1 ≠ b := fun e => hop (by rw [e])
          have hw : (hook b).pfx ++ (hook b).delimiter ++ key
              ≠ (hook b1).pfx ++ (hook b1).delimiter ++ key := by
            cases b <;> cases b1 <;> first | exact absurd rfl hb | exact hwire | exact hwire.symm
          simp only [hw, if_false]
          exact hs
      · right
        rcases List.mem_cons.mp hs with e | e
        · exact absurd e.symm hop
        · exact e

theorem New_no_options (tb : TB) : New tb [] = (tb, some ⟨tb.Name, ":"⟩) := rfl

/-- C7: two hooks built by `New` without options from two distinct test names
send different keys to the store for every key `k`. Consequently, on a store
that is a map from keys to values, after any sequence of steps in which each
scope sets `k` to its own value or reads `k` through its own hook, a scope that
has set `k` reads back its own value through its own hook. -/
theorem distinct_test_names_isolate (tb1 tb2 : TB) (hne : tb1.Name ≠ tb2.Name) (key : String) :
    ∃ h1 h2 : PrefixHook,
      New tb1 [] = (tb1, some h1) ∧ New tb2 [] = (tb2, some h2) ∧
      (∃ k1 k2, wireKey h1 key = some (Arg.str k1) ∧ wireKey h2 key = some (Arg.str k2) ∧
        k1 ≠ k2) ∧
      ∀ (v1 v2 : String) (s0 : Store) (tr : List Op),
        (Op.set true ∈ tr →
          clientGet h1 key
            (tr.foldl (runOp (fun b => cond b h1 h2) (fun b => cond b v1 v2) key) s0)
            = some v1) ∧
        (Op.set false ∈ tr →
          clientGet h2 key
            (tr.foldl (runOp (fun b => cond b h1 h2) (fun b => cond b v1 v2) key) s0)
            = some v2) := by
  have hwire : tb1.Name ++ ":" ++ key ≠ tb2.Name ++ ":" ++ key := by
    intro e
    apply hne
    apply str_append_right_cancel _ _ (":" ++ key)
    rw [← String.append_assoc, ← String.append_assoc]
    exact e
  refine ⟨⟨tb1.Name, ":"⟩, ⟨tb2.Name, ":"⟩, New_no_options tb1, New_no_options tb2,
    ⟨_, _, wireKey_eq _ key, wireKey_eq _ key, hwire⟩, ?_⟩
  intro v1 v2 s0 tr
  refine ⟨?_, ?_⟩
  · intro hmem
    rw [clientGet_eq]
    exact foldl_runOp_kv (fun b => cond b ⟨tb1.Name, ":"⟩ ⟨tb2.Name, ":"⟩)
      (fun b => cond b v1 v2) key hwire true tr s0 (Or.inr hmem)
  · intro hmem
    rw [clientGet_eq]
    exact foldl_runOp_kv (fun b => cond b ⟨tb1.Name, ":"⟩ ⟨tb2.Name, ":"⟩)
      (fun b => cond b v1 v2) key hwire false tr s0 (Or.inr hmem)

theorem distinct_test_names_isolate_witness :
    (⟨"TestRaceCondition/balance-150", []⟩ : TB).Name
      ≠ (⟨"TestRaceCondition/balance-200", []⟩ : TB).Name ∧
    ∃ h1 h2 : PrefixHook,
      New ⟨"TestRaceCondition/balance-150", []⟩ []
        = (⟨"TestRaceCondition/balance-150", []⟩, some h1) ∧
      New ⟨"TestRaceCondition/balance-200", []⟩ []
        = (⟨"TestRaceCondition/balance-200", []⟩, some h2) ∧
      (Op.set true ∈ [Op.set true, Op.set false, Op.get false] →
        clientGet h1 "user:1:balance"
          ([Op.set true, Op.set false, Op.get false].foldl
            (runOp (fun b => cond b h1 h2) (fun b => cond b "150" "200") "user:1:balance")
            ⟨fun _ => none, fun _ => none⟩)
          = some "150") :=
  ⟨by decide,
    (distinct_test_names_isolate ⟨"TestRaceCondition/balance-150", []⟩
      ⟨"TestRaceCondition/balance-200", []⟩ (by decide) "user:1:balance").imp
      (fun _ hx => hx.imp (fun _ hy =>
        ⟨hy.1, hy.2.1, (hy.2.2.2 "150" "200" ⟨fun _ => none, fun _ => none⟩
          [Op.set true, Op.set false, Op.get false]).1⟩))⟩

/-- Two rewritten keys under the delimiter `":"` collide only when the
prefixes are equal or one prefix followed by `":"` starts the other. -/
theorem wire_collision (p1 p2 k1 k2 : String) (hc : p1 ++ ":" ++ k1 = p2 ++ ":" ++ k2) :
    p1 = p2 ∨ (∃ t, p2 = p1 ++ ":" ++ t) ∨ (∃ t, p1 = p2 ++ ":" ++ t) := by
  have hd := congrArg String.data hc
  simp only [String.data_append] at hd
  have hcolon : (":" : String).data = [':'] := rfl
  rw [List.append_assoc, List.append_assoc] at hd
  rcases List.append_eq_append_iff.mp hd with ⟨a, hb, ha⟩ | ⟨a, hb, ha⟩
  · cases a with
    | nil =>
      left
      apply String.ext
      simpa using hb.symm
    | cons d a1 =>
      right; left
      simp only [List.cons_append, List.singleton_append, List.cons.injEq] at ha
      refine ⟨⟨a1⟩, ?_⟩
      apply String.ext
      simp only [String.data_append, hcolon]
      rw [hb, ha.1]
      simp
  · cases a with
    | nil =>
      left
      apply String.ext
      simpa using hb
    | cons d a1 =>
      right; right
      simp only [List.cons_append, List.singleton_append, List.cons.injEq] at ha
      refine ⟨⟨a1⟩, ?_⟩
      apply String.ext
      simp only [String.data_append, hcolon]
      rw [hb, ha.1]
      simp

/-- The side condition on the prefixes in the lemma above is needed: when one
prefix followed by `":"` starts the other, the two hooks share keys. -/
theorem prefix_extension_collides (p t k : String) :
    wireKey ⟨p, ":"⟩ (t ++ ":" ++ k) = wireKey ⟨p ++ ":" ++ t, ":"⟩ k := by
  rw [wireKey_eq, wireKey_eq]
  simp [String.append_assoc]

/-- C8 (counterexample): the hooks with prefixes `"a"` and `"a:b"` (distinct,
both with delimiter `":"`) send the same key `"a:b:c"` to the store for the
keys `"b:c"` and `"c"`, and a value set through the first hook under `"b:c"`
is read through the second hook under `"c"`. -/
theorem distinct_prefixes_collide :
    (⟨"a", ":"⟩ : PrefixHook).pfx ≠ (⟨"a:b", ":"⟩ : PrefixHook).pfx ∧
    wireKey ⟨"a", ":"⟩ "b:c" = some (Arg.str "a:b:c") ∧
    wireKey ⟨"a:b", ":"⟩ "c" = some (Arg.str "a:b:c") ∧
    clientGet ⟨"a:b", ":"⟩ "c" (clientSet ⟨"a", ":"⟩ "b:c" "v" ⟨fun _ => none, fun _ => none⟩)
      = some "v" :=
  ⟨by decide, by decide, by decide, by decide⟩

/-- C8 (amended): for every two hooks with the default delimiter `":"` whose
prefixes are distinct and such that neither prefix followed by `":"` is the
start of the other prefix, and for every pair of string keys `k1` and `k2`, the
key the first hook sends to the store for `k1` differs from the key the second
hook sends for `k2`; a value set through the first hook is never the entry a
read through the second hook addresses. -/
theorem distinct_prefixes_isolate (p1 p2 : String) (hne : p1 ≠ p2)
    (h12 : ¬ ∃ t, p2 = p1 ++ ":" ++ t) (h21 : ¬ ∃ t, p1 = p2 ++ ":" ++ t)
    (k1 k2 : String) :
    (∃ w1 w2, wireKey ⟨p1, ":"⟩ k1 = some (Arg.str w1) ∧
      wireKey ⟨p2, ":"⟩ k2 = some (Arg.str w2) ∧ w1 ≠ w2) ∧
    ∀ (v : String) (s : Store),
      clientGet ⟨p2, ":"⟩ k2 (clientSet ⟨p1, ":"⟩ k1 v s) = clientGet ⟨p2, ":"⟩ k2 s := by
  have hw : p1 ++ ":" ++ k1 ≠ p2 ++ ":" ++ k2 := by
    intro e
    rcases wire_collision p1 p2 k1 k2 e with h | h | h
    · exact hne h
    · exact h12 h
    · exact h21 h
  refine ⟨⟨_, _, wireKey_eq _ k1, wireKey_eq _ k2, hw⟩, ?_⟩
  intro v s
  rw [clientGet_eq, clientGet_eq, clientSet_eq]
  simp only
  rw [if_neg (fun e => hw e.symm)]

theorem distinct_prefixes_isolate_witness :
    ("TestA" : String) ≠ "TestB" ∧
    (¬ ∃ t, ("TestB" : String) = "TestA" ++ ":" ++ t) ∧
    (¬ ∃ t, ("TestA" : String) = "TestB" ++ ":" ++ t) ∧
    ∃ w1 w2, wireKey ⟨"TestA", ":"⟩ "k1" = some (Arg.str w1) ∧
      wireKey ⟨"TestB", ":"⟩ "k2" = some (Arg.str w2) ∧ w1 ≠ w2 :=
  have e12 : ¬ ∃ t, ("TestB" : String) = "TestA" ++ ":" ++ t := fun ⟨t, ht⟩ => by
    have hd := congrArg String.data ht
    simp at hd
  have e21 : ¬ ∃ t, ("TestA" : String) = "TestB" ++ ":" ++ t := fun ⟨t, ht⟩ => by
    have hd := congrArg String.data ht
    simp at hd
  ⟨by decide, e12, e21,
    (distinct_prefixes_isolate "TestA" "TestB" (by decide) e12 e21 "k1" "k2").1⟩

/-! ## Options -/

/-- C9: for every string `d` and every configuration `c`, the option
`WithDelimiter d` applied to `c`: when `d` is empty, returns an error whose
message is exactly "WithDelimiter: cannot be empty" and leaves `c` unchanged;
when `d` is not empty, returns no error, sets the delimiter of `c` to `d` and
leaves the prefix of `c` unchanged. -/
theorem WithDelimiter_spec (d : String) (c : options) :
    (d = "" →
      ∃ e : Error, WithDelimiter d c = (some e, c) ∧
        e.msg = "WithDelimiter: cannot be empty") ∧
    (d ≠ "" →
      (WithDelimiter d c).1 = none ∧ (WithDelimiter d c).2.delimiter = d ∧
        (WithDelimiter d c).2.pfx = c.pfx) := by
  refine ⟨?_, ?_⟩
  · intro hd
    exact ⟨errors.New "WithDelimiter: cannot be empty", by simp [WithDelimiter, hd], rfl⟩
  · intro hd
    simp [WithDelimiter, hd]

theorem WithDelimiter_spec_witness :
    (∃ e : Error, WithDelimiter "" ⟨"T", ":"⟩ = (some e, ⟨"T", ":"⟩) ∧
      e.msg = "WithDelimiter: cannot be empty") ∧
    ((WithDelimiter "|" ⟨"T", ":"⟩).1 = none ∧ (WithDelimiter "|" ⟨"T", ":"⟩).2.delimiter = "|" ∧
      (WithDelimiter "|" ⟨"T", ":"⟩).2.pfx = "T") :=
  ⟨(WithDelimiter_spec "" ⟨"T", ":"⟩).1 rfl, (WithDelimiter_spec "|" ⟨"T", ":"⟩).2 (by decide)⟩

theorem WithOptions_append (pre : List HookOption) :
    ∀ (post : List HookOption) (o : options), AllSucceed pre o →
      WithOptions (pre ++ post) o = WithOptions post (applyAll pre o) := by
  induction pre with
  | nil => intro post o _; rfl
  | cons f rest ih =>
    intro post o hs
    obtain ⟨hf, hrest⟩ := hs
    cases hfo : f o with
    | mk r o1 =>
      rw [hfo] at hf hrest
      simp only at hf hrest
      subst hf
      have e1 : WithOptions (f :: (rest ++ post)) o = WithOptions (rest ++ post) o1 := by
        rw [WithOptions, hfo]
      have e2 : applyAll (f :: rest) o = applyAll rest o1 := by
        simp [applyAll, hfo]
      show WithOptions (f :: (rest ++ post)) o = WithOptions post (applyAll (f :: rest) o)
      rw [e1, e2]
      exact ih post o1 hrest

theorem WithOptions_cases (opts : List HookOption) :
    ∀ o : options, AllSucceed opts o ∨
      ∃ pre f post e, opts = pre ++ f :: post ∧ AllSucceed pre o ∧
        (f (applyAll pre o)).1 = some e := by
  induction opts with
  | nil => intro o; exact Or.inl trivial
  | cons f rest ih =>
    intro o
    cases hf : (f o).1 with
    | some e => exact Or.inr ⟨[], f, rest, e, rfl, trivial, hf⟩
    | none =>
      rcases ih (f o).2 with hall | ⟨pre, g, post, e, hsplit, hpre, hg⟩
      · exact Or.inl ⟨hf, hall⟩
      · refine Or.inr ⟨f :: pre, g, post, e, ?_, ⟨hf, hpre⟩, ?_⟩
        · rw [hsplit]; rfl
        · exact hg

/-- C10: `WithOptions opts` applies the options in list order. When every
option succeeds it returns no error and the configuration is the one left by
applying all of them in order. Otherwise, with `f` the first option that fails
(every option of `pre` before it succeeded), it returns exactly the error value
`f` returned and the configuration exactly as `f` left it, whatever options
`post` come after `f`: none of them is applied. Every list of options is in
one of the two cases. -/
theorem WithOptions_first_failure_wins (o : options) :
    (∀ opts, AllSucceed opts o → WithOptions opts o = (none, applyAll opts o)) ∧
    (∀ pre f post e, AllSucceed pre o → (f (applyAll pre o)).1 = some e →
      WithOptions (pre ++ f :: post) o = (some e, (f (applyAll pre o)).2)) ∧
    (∀ opts, AllSucceed opts o ∨
      ∃ pre f post e, opts = pre ++ f :: post ∧ AllSucceed pre o ∧
        (f (applyAll pre o)).1 = some e) := by
  refine ⟨?_, ?_, fun opts => WithOptions_cases opts o⟩
  · intro opts hs
    have happ := WithOptions_append opts [] o hs
    rw [List.append_nil] at happ
    rw [happ]
    rfl
  · intro pre f post e hs hf
    rw [WithOptions_append pre (f :: post) o hs]
    cases hfo : f (applyAll pre o) with
    | mk r o1 =>
      rw [hfo] at hf
      simp only at hf
      subst hf
      rw [WithOptions, hfo]

theorem WithOptions_first_failure_wins_witness :
    AllSucceed [WithDelimiter "|", WithDelimiter "-"] ⟨"T", ":"⟩ ∧
    WithOptions [WithDelimiter "|", WithDelimiter "-"] ⟨"T", ":"⟩ = (none, ⟨"T", "-"⟩) ∧
    AllSucceed [WithDelimiter "|"] ⟨"T", ":"⟩ ∧
    (WithDelimiter "" (applyAll [WithDelimiter "|"] ⟨"T", ":"⟩)).1
      = some ⟨"WithDelimiter: cannot be empty"⟩ ∧
    WithOptions ([WithDelimiter "|"] ++ WithDelimiter "" :: [WithDelimiter "-"]) ⟨"T", ":"⟩
      = (some ⟨"WithDelimiter: cannot be empty"⟩, ⟨"T", "|"⟩) :=
  ⟨⟨rfl, rfl, trivial⟩,
    (WithOptions_first_failure_wins ⟨"T", ":"⟩).1 [WithDelimiter "|", WithDelimiter "-"]
      ⟨rfl, rfl, trivial⟩,
    ⟨rfl, trivial⟩, rfl,
    (WithOptions_first_failure_wins ⟨"T", ":"⟩).2.1 [WithDelimiter "|"] (WithDelimiter "")
      [WithDelimiter "-"] ⟨"WithDelimiter: cannot be empty"⟩ ⟨rfl, trivial⟩ rfl⟩

/-! ## Building a hook -/

/-- An option built from the public constructors fails with one message only. -/
theorem Buildable_error_msg (f : HookOption) (hf : Buildable f) :
    ∀ (o : options) (e : Error), (f o).1 = some e → e.msg = "WithDelimiter: cannot be empty" := by
  induction hf with
  | withDelimiter d =>
    intro o e he
    unfold WithDelimiter at he
    by_cases hd : d = ""
    · simp [hd] at he
      rw [← he]
      rfl
    · simp [hd] at he
  | withOptions opts hopts ih =>
    induction opts with
    | nil =>
      intro o e he
      simp [WithOptions] at he
    | cons g rest ihrest =>
      intro o e he
      rw [WithOptions] at he
      cases hgo : g o with
      | mk r o1 =>
        rw [hgo] at he
        cases r with
        | some err =>
          simp only at he
          have hg := ih g (List.mem_cons_self _ _) o err (by rw [hgo])
          cases he
          exact hg
        | none =>
          simp only at he
          exact ihrest (fun opt hopt => hopts opt (List.mem_cons_of_mem _ hopt))
            (fun opt hopt => ih opt (List.mem_cons_of_mem _ hopt)) o1 e he

/-- The composite of a concatenated list runs the first part and, when that
succeeds, the second part on the configuration the first part left. -/
theorem WithOptions_split (xs : List HookOption) :
    ∀ (ys : List HookOption) (o : options),
      WithOptions (xs ++ ys) o =
        match WithOptions xs o with
        | (some err, o1) => (some err, o1)
        | (none, o1) => WithOptions ys o1 := by
  induction xs with
  | nil => intro ys o; rfl
  | cons f rest ih =>
    intro ys o
    have e1 : WithOptions (f :: (rest ++ ys)) o =
        match f o with
        | (some err, o1) => (some err, o1)
        | (none, o1) => WithOptions (rest ++ ys) o1 := by rw [WithOptions]
    have e2 : WithOptions (f :: rest) o =
        match f o with
        | (some err, o1) => (some err, o1)
        | (none, o1) => WithOptions rest o1 := by rw [WithOptions]
    show WithOptions (f :: (rest ++ ys)) o = _
    rw [e1, e2]
    cases hfo : f o with
    | mk r o1 =>
      cases r with
      | some err => rfl
      | none => exact ih ys o1

/-- A list that holds an always failing option after options built from the
public constructors fails, with the only message there is. -/
theorem WithOptions_failing_member (pre post : List HookOption) (f : HookOption)
    (hpre : ∀ opt ∈ pre, Buildable opt)
    (hf : ∀ o, ∃ err : Error, err.msg = "WithDelimiter: cannot be empty" ∧ (f o).1 = some err)
    (o : options) :
    ∃ err : Error, err.msg = "WithDelimiter: cannot be empty" ∧
      (WithOptions (pre ++ f :: post) o).1 = some err := by
  rw [WithOptions_split]
  cases hp : WithOptions pre o with
  | mk r o1 =>
    cases r with
    | some err =>
      refine ⟨err, ?_, rfl⟩
      exact Buildable_error_msg _ (Buildable.withOptions pre hpre) o err (by rw [hp])
    | none =>
      obtain ⟨err, hmsg, herr⟩ := hf o1
      refine ⟨err, hmsg, ?_⟩
      simp only
      rw [WithOptions]
      cases hfo : f o1 with
      | mk r2 o2 =>
        rw [hfo] at herr
        simp only at herr
        subst herr
        rfl

theorem HasEmptyDelimiter_fails (f : HookOption) (hf : HasEmptyDelimiter f) :
    ∀ o, ∃ err : Error, err.msg = "WithDelimiter: cannot be empty" ∧ (f o).1 = some err := by
  induction hf with
  | here =>
    intro o
    exact ⟨errors.New "WithDelimiter: cannot be empty", rfl, by simp [WithDelimiter]⟩
  | nested pre post g hpre _ ih =>
    intro o
    exact WithOptions_failing_member pre post g hpre ih o

/-- C11: building a hook with `New` and the option `WithDelimiter ""`, alone or
at any place of a list of options built from the public constructors (also
inside nested `WithOptions`), calls `tb.Fatal` with an error whose message is
"WithDelimiter: cannot be empty" (the message is appended to the record of the
failure sink) and yields no hook. -/
theorem New_empty_delimiter_fails (tb : TB) (pre post : List HookOption) (f : HookOption)
    (hpre : ∀ opt ∈ pre, Buildable opt) (hf : HasEmptyDelimiter f) :
    (New tb (pre ++ f :: post)).2 = none ∧
    (New tb (pre ++ f :: post)).1.fatals = tb.fatals ++ ["WithDelimiter: cannot be empty"] ∧
    (New tb (pre ++ f :: post)).1.Name = tb.Name := by
  obtain ⟨err, hmsg, herr⟩ :=
    WithOptions_failing_member pre post f hpre (HasEmptyDelimiter_fails f hf) ⟨tb.Name, ":"⟩
  unfold New
  simp only
  cases hw : WithOptions (pre ++ f :: post) ⟨tb.Name, ":"⟩ with
  | mk r o1 =>
    rw [hw] at herr
    simp only at herr
    subst herr
    simp [TB.Fatal, hmsg]

theorem New_empty_delimiter_fails_witness :
    (∀ opt ∈ [WithDelimiter "|"], Buildable opt) ∧
    HasEmptyDelimiter (WithDelimiter "") ∧
    (New ⟨"TestWithDelimiter_Empty", []⟩
      ([WithDelimiter "|"] ++ WithDelimiter "" :: [WithDelimiter "-"])).2 = none ∧
    (New ⟨"TestWithDelimiter_Empty", []⟩
      ([WithDelimiter "|"] ++ WithDelimiter "" :: [WithDelimiter "-"])).1.fatals
      = [] ++ ["WithDelimiter: cannot be empty"] :=
  have hb : ∀ opt ∈ [WithDelimiter "|"], Buildable opt := fun opt hopt => by
    rw [List.mem_singleton.mp hopt]
    exact Buildable.withDelimiter "|"
  ⟨hb, HasEmptyDelimiter.here,
    (New_empty_delimiter_fails ⟨"TestWithDelimiter_Empty", []⟩ [WithDelimiter "|"]
      [WithDelimiter "-"] (WithDelimiter "") hb HasEmptyDelimiter.here).1,
    (New_empty_delimiter_fails ⟨"TestWithDelimiter_Empty", []⟩ [WithDelimiter "|"]
      [WithDelimiter "-"] (WithDelimiter "") hb HasEmptyDelimiter.here).2.1⟩

/-- C12: for every test name and every key, `New` with no options reports no
failure and returns the hook with prefix the test name and delimiter `":"`,
which rewrites `k` to `name + ":" + k`; `New` with the single option
`WithDelimiter d`, `d` not empty, reports no failure and returns the hook with
prefix the test name and delimiter `d`, which rewrites `k` to `name + d + k`.
With name `"T"`, delimiter `"|"` and key `"user:1:balance"` the rewritten key
is `"T|user:1:balance"`. -/
theorem New_builds_hook (tb : TB) (k : String) :
    (New tb [] = (tb, some ⟨tb.Name, ":"⟩) ∧
      wireKey ⟨tb.Name, ":"⟩ k = some (Arg.str (tb.Name ++ ":" ++ k))) ∧
    (∀ d : String, d ≠ "" →
      New tb [WithDelimiter d] = (tb, some ⟨tb.Name, d⟩) ∧
      wireKey ⟨tb.Name, d⟩ k = some (Arg.str (tb.Name ++ d ++ k))) ∧
    (New ⟨"T", []⟩ [WithDelimiter "|"] = (⟨"T", []⟩, some ⟨"T", "|"⟩) ∧
      wireKey ⟨"T", "|"⟩ "user:1:balance" = some (Arg.str "T|user:1:balance")) := by
  refine ⟨⟨rfl, wireKey_eq _ k⟩, ?_, ⟨by decide, by decide⟩⟩
  intro d hd
  refine ⟨?_, wireKey_eq _ k⟩
  simp [New, WithOptions, WithDelimiter, hd]

theorem New_builds_hook_witness :
    ("|" : String) ≠ "" ∧
    New ⟨"TestWithDelimiter", []⟩ [WithDelimiter "|"]
      = (⟨"TestWithDelimiter", []⟩, some ⟨"TestWithDelimiter", "|"⟩) ∧
    wireKey ⟨"TestWithDelimiter", "|"⟩ "user:1:balance"
      = some (Arg.str ("TestWithDelimiter" ++ "|" ++ "user:1:balance")) :=
  ⟨by decide,
    ((New_builds_hook ⟨"TestWithDelimiter", []⟩ "user:1:balance").2.1 "|" (by decide)).1,
    ((New_builds_hook ⟨"TestWithDelimiter", []⟩ "user:1:balance").2.1 "|" (by decide)).2⟩

/-! ## What is left in memory after a call -/

theorem undo_append (ds1 ds2 : List Deferred) (mem : Mem) :
    undo (ds1 ++ ds2) mem = undo ds2 (undo ds1 mem) := by
  simp [undo, List.foldl_append]

/-- The memory after the loop of `ProcessPipelineHook` followed by its deferred
calls: everything is as before, except that a command of the batch whose key is
the empty string keeps the rewritten key. -/
theorem undo_pending_prefixed (argc : Cmder → Nat) (h : PrefixHook) (cmds : List Cmder) :
    ∀ (mem : Mem) (c : Cmder) (j : Nat),
      undo (pending argc h cmds mem) (prefixed argc h cmds mem) c j =
        if j = 1 ∧ c ∈ cmds ∧ keyAt argc mem c = some "" then
          Arg.str (h.pfx ++ h.delimiter ++ "")
        else mem c j := by
  induction cmds with
  | nil =>
    intro mem c j
    simp [pending, prefixed, undo]
  | cons x rest ih =>
    intro mem c j
    show undo (pending argc h rest (step argc h mem x) ++ _)
      (prefixed argc h rest (step argc h mem x)) c j = _
    rw [undo_append]
    have hother : c ≠ x → step argc h mem x c = mem c := step_other argc h mem x c
    cases hk : keyAt argc mem x with
    | none =>
      have hs : step argc h mem x = mem := by unfold step; rw [hk]
      simp only [hs]
      show undo (pending argc h rest mem) (prefixed argc h rest mem) c j = _
      rw [ih mem c j]
      by_cases hcx : c = x
      · subst hcx
        simp [hk]
      · simp [List.mem_cons, hcx]
    | some k =>
      have hs : step argc h mem x = write mem x 1 (Arg.str (h.pfx ++ h.delimiter ++ k)) := by
        unfold step; rw [hk]
      have hmem1 : mem x 1 = Arg.str k := (keyAt_eq_some argc mem x k hk).2
      by_cases he : k = ""
      · subst he
        simp only [ne_eq, not_true_eq_false, if_false]
        show undo (pending argc h rest (step argc h mem x))
          (prefixed argc h rest (step argc h mem x)) c j = _
        rw [ih (step argc h mem x) c j]
        by_cases hcx : c = x
        · subst hcx
          by_cases hj : j = 1
          · subst hj
            simp [hk, hs, write]
          · simp [hj, hs, write]
        · rw [keyAt_congr argc _ mem c (hother hcx), hother hcx]
          simp [List.mem_cons, hcx]
      · simp only [ne_eq, he, not_false_eq_true, if_true]
        show write (undo (pending argc h rest (step argc h mem x))
          (prefixed argc h rest (step argc h mem x))) x 1 (Arg.str k) c j = _
        by_cases hcx : c = x
        · subst hcx
          by_cases hj : j = 1
          · subst hj
            simp [write, hk, he, hmem1]
          · have e1 : write (undo (pending argc h rest (step argc h mem c))
                (prefixed argc h rest (step argc h mem c))) c 1 (Arg.str k) c j
                = undo (pending argc h rest (step argc h mem c))
                  (prefixed argc h rest (step argc h mem c)) c j := by
              simp [write, hj]
            rw [e1, ih (step argc h mem c) c j]
            simp [hj, hs, write]
        · have e1 : write (undo (pending argc h rest (step argc h mem x))
              (prefixed argc h rest (step argc h mem x))) x 1 (Arg.str k) c j
              = undo (pending argc h rest (step argc h mem x))
                (prefixed argc h rest (step argc h mem x)) c j := by
            simp [write, hcx]
          rw [e1, ih (step argc h mem x) c j, keyAt_congr argc _ mem c (hother hcx), hother hcx]
          simp [List.mem_cons, hcx]

theorem Args_get_one (argc : Cmder → Nat) (mem : Mem) (cmd : Cmder) (hlen : 2 ≤ argc cmd) :
    (Args argc mem cmd)[1]? = some (mem cmd 1) := by
  rw [Args_get?]
  have h1 : 1 < argc cmd := by omega
  simp [h1]

/-- C13: restoration is scheduled exactly when `prefixKey` returns a non-empty
string. For every command with at least 2 arguments and a string key `k` at
position 1, `prefixKey` returns `k` and the loop of `ProcessPipelineHook`
defers a `restoreKey` call for it exactly when `k` is not empty. For every
`next` that does not modify the arguments, after the function returned by
`ProcessHook`, or by `ProcessPipelineHook` for a batch that holds the command,
has returned, argument 1 equals `k` if `k` is non-empty and equals
`prefix + delimiter` if `k` is the empty string. -/
theorem restore_iff_key_nonempty {κ ε : Type} (argc : Cmder → Nat) (h : PrefixHook)
    (cmd : Cmder) (mem : Mem) (env : ε) (k : String)
    (hlen : 2 ≤ argc cmd) (hkey : mem cmd 1 = Arg.str k) :
    (∃ mem1, prefixKey argc h cmd mem = .ok (k, mem1)) ∧
    (prefixEach argc h [cmd] [] mem).2.1 = (if k ≠ "" then [(cmd, k)] else []) ∧
    (∀ (next : ProcessHookFn κ ε), KeepsArgs next → ∀ ctx : κ,
      (Args argc (ProcessHook argc h next ctx cmd ⟨mem, env⟩).2.mem cmd)[1]? =
        some (if k ≠ "" then Arg.str k else Arg.str (h.pfx ++ h.delimiter))) ∧
    (∀ (next : ProcessPipelineHookFn κ ε), KeepsArgs next →
      ∀ (ctx : κ) (cmds : List Cmder), cmd ∈ cmds →
      (Args argc (ProcessPipelineHook argc h next ctx cmds ⟨mem, env⟩).2.mem cmd)[1]? =
        some (if k ≠ "" then Arg.str k else Arg.str (h.pfx ++ h.delimiter))) := by
  have hk := keyAt_of_str argc mem cmd k hlen hkey
  refine ⟨?_, ?_, ?_, ?_⟩
  · rw [prefixKey_eq, hk]
    exact ⟨_, rfl⟩
  · rw [prefixEach_eq]
    simp only [pending, hk, List.append_nil, List.nil_append]
  · intro next hnext ctx
    rw [Args_get_one argc _ cmd hlen,
      ProcessHook_final_mem argc h next hnext ctx cmd ⟨mem, env⟩ k hk]
    by_cases he : k = ""
    · simp [he, write]
    · simp [he, hkey]
  · intro next hnext ctx cmds hmem
    rw [Args_get_one argc _ cmd hlen, ProcessPipelineHook_eq]
    simp only [hnext _ _ _]
    rw [undo_pending_prefixed]
    by_cases he : k = ""
    · subst he
      simp [hmem, hk]
    · simp [hk, he, hkey]

theorem restore_iff_key_nonempty_witness :
    2 ≤ exampleArgc 0 ∧ (exampleWorld "").mem 0 1 = Arg.str "" ∧
    (Args exampleArgc
      (ProcessHook exampleArgc ⟨"T", ":"⟩ exampleNext () 0
        ⟨(exampleWorld "").mem, ()⟩).2.mem 0)[1]?
      = some (if ("" : String) ≠ "" then Arg.str "" else Arg.str ("T" ++ ":")) ∧
    (exampleWorld "foo").mem 0 1 = Arg.str "foo" ∧
    (Args exampleArgc
      (ProcessPipelineHook exampleArgc ⟨"T", ":"⟩ exampleNext () [1, 0, 0]
        ⟨(exampleWorld "foo").mem, ()⟩).2.mem 0)[1]?
      = some (if ("foo" : String) ≠ "" then Arg.str "foo" else Arg.str ("T" ++ ":")) :=
  ⟨by decide, rfl,
    (@restore_iff_key_nonempty Unit Unit exampleArgc ⟨"T", ":"⟩ 0 (exampleWorld "").mem ()
      "" (by decide) rfl).2.2.1 exampleNext (fun _ _ _ => rfl) (),
    rfl,
    (@restore_iff_key_nonempty Unit Unit exampleArgc ⟨"T", ":"⟩ 0 (exampleWorld "foo").mem ()
      "foo" (by decide) rfl).2.2.2 exampleNext (fun _ _ _ => rfl) () [1, 0, 0] (by decide)⟩

theorem str_append_ne_empty (a k : String) (hk : k ≠ "") : a ++ k ≠ "" := by
  intro e
  apply hk
  have hd := congrArg String.data e
  simp only [String.data_append] at hd
  apply String.ext
  exact (List.append_eq_nil.mp hd).2

/-- C14: stacked hooks compose and unwind. For every two hooks `h1 = (p1, d1)`
and `h2 = (p2, d2)`, every `next` that does not modify the arguments and every
command with at least 2 arguments and a non-empty string key `k`, running
`h1.ProcessHook(h2.ProcessHook(next))` calls `next` once, `next` observes
`p2 + d2 + p1 + d1 + k` at position 1, the call ends as `next` ended (same
error), and the memory of all argument arrays is as it was before. -/
theorem stacked_hooks_compose {κ ε : Type} (argc : Cmder → Nat) (h1 h2 : PrefixHook)
    (next : ProcessHookFn κ ε) (hnext : KeepsArgs next) (ctx : κ) (cmd : Cmder)
    (mem : Mem) (env : ε) (k : String)
    (hlen : 2 ≤ argc cmd) (hkey : mem cmd 1 = Arg.str k) (hne : k ≠ "") :
    ∃ call : Call κ,
      (ProcessHook argc h1 (ProcessHook argc h2 (spy argc next)) ctx cmd
        ⟨mem, (env, [])⟩).2.env.2 = [call] ∧
      call.args[1]? =
        some (Arg.str (h2.pfx ++ h2.delimiter ++ h1.pfx ++ h1.delimiter ++ k)) ∧
      (ProcessHook argc h1 (ProcessHook argc h2 next) ctx cmd ⟨mem, env⟩).1 = call.outcome ∧
      (ProcessHook argc h1 (ProcessHook argc h2 next) ctx cmd ⟨mem, env⟩).2.mem = mem ∧
      Args argc (ProcessHook argc h1 (ProcessHook argc h2 next) ctx cmd ⟨mem, env⟩).2.mem cmd
        = Args argc mem cmd := by
  have hk := keyAt_of_str argc mem cmd k hlen hkey
  have hk1 : keyAt argc (write mem cmd 1 (Arg.str (h1.pfx ++ h1.delimiter ++ k))) cmd
      = some (h1.pfx ++ h1.delimiter ++ k) :=
    keyAt_of_str argc _ cmd _ hlen (write_same mem cmd 1 _)
  have hne1 : h1.pfx ++ h1.delimiter ++ k ≠ "" := str_append_ne_empty _ k hne
  have hfinal : (ProcessHook argc h1 (ProcessHook argc h2 next) ctx cmd ⟨mem, env⟩).2.mem
      = mem := by
    rw [ProcessHook_of_key argc h1 _ ctx cmd ⟨mem, env⟩ k hk]
    simp only [hne, ne_eq, not_false_eq_true, if_true]
    rw [ProcessHook_final_mem argc h2 next hnext ctx cmd _ _ hk1]
    simp only [hne1, ne_eq, not_false_eq_true, if_true]
    rw [← hkey]
    exact write_write_back mem cmd 1 _
  refine ⟨⟨ctx, cmd,
      (Args argc (write mem cmd 1 (Arg.str (h1.pfx ++ h1.delimiter ++ k))) cmd).set 1
        (Arg.str (h2.pfx ++ h2.delimiter ++ (h1.pfx ++ h1.delimiter ++ k))),
      (next ctx cmd ⟨write (write mem cmd 1 (Arg.str (h1.pfx ++ h1.delimiter ++ k))) cmd 1
        (Arg.str (h2.pfx ++ h2.delimiter ++ (h1.pfx ++ h1.delimiter ++ k))), env⟩).1⟩,
    ?_, ?_, ?_, hfinal, ?_⟩
  · rw [ProcessHook_of_key argc h1 _ ctx cmd ⟨mem, (env, [])⟩ k hk]
    simp only
    rw [ProcessHook_spy_log argc h2 next ctx cmd _ env [] _ hk1]
    rfl
  · have h1lt : 1 < (Args argc (write mem cmd 1
        (Arg.str (h1.pfx ++ h1.delimiter ++ k))) cmd).length := by
      rw [Args_length]; omega
    simp only [List.getElem?_set, h1lt, if_true]
    simp [String.append_assoc]
  · rw [ProcessHook_of_key argc h1 _ ctx cmd ⟨mem, env⟩ k hk]
    simp only
    rw [ProcessHook_of_key argc h2 next ctx cmd _ _ hk1]
  · rw [hfinal]

theorem stacked_hooks_compose_witness :
    KeepsArgs (exampleNext : ProcessHookFn Unit Unit) ∧
    2 ≤ exampleArgc 0 ∧ (exampleWorld "foo").mem 0 1 = Arg.str "foo" ∧
    ("foo" : String) ≠ "" ∧
    ∃ call : Call Unit,
      (ProcessHook exampleArgc ⟨"A", ":"⟩
        (ProcessHook exampleArgc ⟨"B", "|"⟩ (spy exampleArgc exampleNext)) () 0
        ⟨(exampleWorld "foo").mem, ((), [])⟩).2.env.2 = [call] ∧
      call.args[1]? = some (Arg.str ("B" ++ "|" ++ "A" ++ ":" ++ "foo")) :=
  ⟨fun _ _ _ => rfl, by decide, rfl, by decide,
    (stacked_hooks_compose exampleArgc ⟨"A", ":"⟩ ⟨"B", "|"⟩ exampleNext (fun _ _ _ => rfl) () 0
      (exampleWorld "foo").mem () "foo" (by decide) rfl (by decide)).imp
      (fun _ hc => ⟨hc.1, hc.2.1⟩)⟩

/-! ## Invariants of the configuration -/

theorem WithOptions_keeps (opts : List HookOption)
    (hopts : ∀ opt ∈ opts, ∀ c : options, c.delimiter ≠ "" →
      (opt c).2.pfx = c.pfx ∧ (opt c).2.delimiter ≠ "") :
    ∀ c : options, c.delimiter ≠ "" →
      (WithOptions opts c).2.pfx = c.pfx ∧ (WithOptions opts c).2.delimiter ≠ "" := by
  induction opts with
  | nil =>
    intro c hc
    exact ⟨rfl, hc⟩
  | cons g rest ih =>
    intro c hc
    obtain ⟨hg1, hg2⟩ := hopts g (List.mem_cons_self _ _) c hc
    rw [WithOptions]
    cases hgo : g c with
    | mk r c1 =>
      rw [hgo] at hg1 hg2
      cases r with
      | some err => exact ⟨hg1, hg2⟩
      | none =>
        obtain ⟨ih1, ih2⟩ :=
          ih (fun opt hopt => hopts opt (List.mem_cons_of_mem _ hopt)) c1 hg2
        exact ⟨ih1.trans hg1, ih2⟩

theorem Buildable_keeps (f : HookOption) (hf : Buildable f) :
    ∀ c : options, c.delimiter ≠ "" →
      (f c).2.pfx = c.pfx ∧ (f c).2.delimiter ≠ "" := by
  induction hf with
  | withDelimiter d =>
    intro c hc
    unfold WithDelimiter
    by_cases hd : d = ""
    · simp [hd, hc]
    · simp [hd]
  | withOptions opts _ ih => exact WithOptions_keeps opts ih

/-- C15: every option built from the public constructors (`WithDelimiter` and
`WithOptions`, nested to any depth), applied to a configuration whose delimiter
is not empty, leaves the prefix unchanged and the delimiter non-empty, whether
it returns an error or not. Hence every hook that `New` produces from such
options has the test name as prefix and a non-empty delimiter. -/
theorem public_options_keep_invariant :
    (∀ f : HookOption, Buildable f → ∀ c : options, c.delimiter ≠ "" →
      (f c).2.pfx = c.pfx ∧ (f c).2.delimiter ≠ "") ∧
    (∀ (tb : TB) (opts : List HookOption), (∀ opt ∈ opts, Buildable opt) →
      ∀ h : PrefixHook, (New tb opts).2 = some h →
        h.pfx = tb.Name ∧ h.delimiter ≠ "") := by
  refine ⟨Buildable_keeps, ?_⟩
  intro tb opts hopts h hnew
  have hcolon : (":" : String) ≠ "" := by decide
  have hinv := Buildable_keeps _ (Buildable.withOptions opts hopts) ⟨tb.Name, ":"⟩ hcolon
  unfold New at hnew
  simp only at hnew
  cases hw : WithOptions opts ⟨tb.Name, ":"⟩ with
  | mk r o1 =>
    rw [hw] at hnew hinv
    cases r with
    | some err => simp at hnew
    | none =>
      simp only [Option.some.injEq] at hnew
      subst hnew
      exact hinv

theorem public_options_keep_invariant_witness :
    Buildable (WithOptions [WithDelimiter "|", WithOptions [WithDelimiter ""]]) ∧
    (⟨"T", ":"⟩ : options).delimiter ≠ "" ∧
    ((WithOptions [WithDelimiter "|", WithOptions [WithDelimiter ""]] ⟨"T", ":"⟩).2.pfx = "T" ∧
      (WithOptions [WithDelimiter "|", WithOptions [WithDelimiter ""]] ⟨"T", ":"⟩).2.delimiter
        ≠ "") ∧
    (New ⟨"T", []⟩ [WithDelimiter "|"]).2 = some ⟨"T", "|"⟩ :=
  have hin : Buildable (WithOptions [WithDelimiter ""]) :=
    Buildable.withOptions _ (fun opt hopt => by
      rw [List.mem_singleton.mp hopt]
      exact Buildable.withDelimiter "")
  have hb : Buildable (WithOptions [WithDelimiter "|", WithOptions [WithDelimiter ""]]) :=
    Buildable.withOptions _ (fun opt hopt => by
      rcases List.mem_cons.mp hopt with e | e
      · rw [e]; exact Buildable.withDelimiter "|"
      · rw [List.mem_singleton.mp e]; exact hin)
  ⟨hb, by decide, public_options_keep_invariant.1 _ hb ⟨"T", ":"⟩ (by decide), by decide⟩

/-! ## The rewrite as a function of the key -/

theorem stripLeading_append (lead k : String) : stripLeading lead (lead ++ k) = k := by
  apply String.ext
  simp [stripLeading]

/-- C16: for a fixed hook the key rewrite is injective and reversible. For
every hook and every two keys, `prefix + delimiter + k1 = prefix + delimiter +
k2` implies `k1 = k2`; the keys the hook sends to the store for two distinct
keys are distinct; and removing the leading `prefix + delimiter` from the key
sent to the store gives back the original key. -/
theorem rewrite_injective_reversible (h : PrefixHook) (k1 k2 : String) :
    (h.pfx ++ h.delimiter ++ k1 = h.pfx ++ h.delimiter ++ k2 → k1 = k2) ∧
    (wireKey h k1 = wireKey h k2 → k1 = k2) ∧
    (k1 ≠ k2 → wireKey h k1 ≠ wireKey h k2) ∧
    (∃ w, wireKey h k1 = some (Arg.str w) ∧ stripLeading (h.pfx ++ h.delimiter) w = k1) := by
  have hinj : wireKey h k1 = wireKey h k2 → k1 = k2 := by
    intro e
    rw [wireKey_eq, wireKey_eq] at e
    simp only [Option.some.injEq, Arg.str.injEq] at e
    exact str_append_left_cancel _ _ _ e
  exact ⟨str_append_left_cancel _ _ _, hinj, fun hne e => hne (hinj e),
    ⟨_, wireKey_eq h k1, stripLeading_append _ k1⟩⟩

theorem rewrite_injective_reversible_witness :
    ("a" : String) ≠ "b" ∧
    wireKey ⟨"T", ":"⟩ "a" ≠ wireKey ⟨"T", ":"⟩ "b" ∧
    (∃ w, wireKey ⟨"T", ":"⟩ "a" = some (Arg.str w) ∧ stripLeading ("T" ++ ":") w = "a") :=
  ⟨by decide, (rewrite_injective_reversible ⟨"T", ":"⟩ "a" "b").2.2.1 (by decide),
    (rewrite_injective_reversible ⟨"T", ":"⟩ "a" "b").2.2.2⟩

/-! ## Composites of options -/

theorem WithOptions_singleton (opt : HookOption) (o : options) :
    WithOptions [opt] o = opt o := by
  rw [WithOptions]
  cases hoo : opt o with
  | mk r o1 =>
    cases r with
    | some err => rfl
    | none => rfl

/-- C17: `WithOptions` flattens. For every two option lists `xs` and `ys` and
every starting configuration, `WithOptions(WithOptions(xs...),
WithOptions(ys...))` and `WithOptions` of `xs` followed by `ys` yield the same
configuration and the same error value; `WithOptions` of the empty list
returns no error and leaves the configuration unchanged; `WithOptions` of a
single option behaves exactly as that option. -/
theorem WithOptions_flattens (xs ys : List HookOption) (opt : HookOption) (o : options) :
    WithOptions [WithOptions xs, WithOptions ys] o = WithOptions (xs ++ ys) o ∧
    WithOptions [] o = (none, o) ∧
    WithOptions [opt] o = opt o := by
  refine ⟨?_, rfl, WithOptions_singleton opt o⟩
  rw [WithOptions_split, WithOptions]
  cases hx : WithOptions xs o with
  | mk r o1 =>
    cases r with
    | some err => rfl
    | none => exact WithOptions_singleton (WithOptions ys) o1

/-! ## Dialing -/

/-- C18: connection establishment is a pure pass-through. For every hook and
every `next`, `DialHook next` is `next` itself: dialing through the hook gives
what dialing without it gives for every context, network and address, and the
result does not depend on the prefix or the delimiter of the hook. -/
theorem DialHook_is_next {κ ρ : Type} (h h' : PrefixHook) (next : DialHookFn κ ρ) :
    DialHook h next = next ∧
    (∀ (ctx : κ) (network addr : String), DialHook h next ctx network addr
      = next ctx network addr) ∧
    DialHook h next = DialHook h' next :=
  ⟨rfl, fun _ _ _ => rfl, rfl⟩

end Redisprefixtest
